import Mathlib

/-!
Shallow embedding of the rdedup core (`src/bin.rs`): the content-defined
chunker, the producer/writer storage pipeline, and the restore walker.

Bytes are modelled as `Nat`; byte buffers as `List Nat`.  The external
collaborators of the core are modelled as parameters:

* `fce : List Nat → List Nat → Option Nat` stands for
  `rollsum::Bup::find_chunk_edge`; its first argument is the sequence of
  bytes fed to the rolling engine since it was last created (the engine's
  state is a function of exactly those bytes), its second the slice passed
  in, and the result the number of bytes consumed up to and including the
  declared edge.  The rolling-engine contract (rollsum always answers
  `Some(count)` with `1 ≤ count ≤ slice.len()`) is a hypothesis of the
  theorems that need it.
* `sha : List Nat → List Nat` stands for SHA-256; the incremental
  `sha2::Sha256` state is the list of bytes fed since the last `reset`.
* `seal`, `copen`, `keys` stand for `sodiumoxide`'s `box_::seal`,
  `box_::open` and `box_::gen_keypair` (the writer consumes the `i`-th
  generated keypair for the `i`-th chunk file it creates).

Rust panics (slice-out-of-range, `unwrap`, failed `assert!`) are modelled
as `Except` errors / `Option.none`.
-/

namespace RD

/-- `type Edge = (usize, Vec<u8>)` — offset in the input and sha256 sum of
the chunk. -/
abbrev Edge := Nat × List Nat

/-- `enum ChunkType { Index, Data }` -/
inductive ChunkType
  | Index
  | Data
deriving DecidableEq, Repr

/-- An on-disk path of a chunk object.  `digest_to_path` builds
`<dst>/<chunks|index>/<hex d0>/<hex d1>/<hex digest>`; since hex encoding is
injective this path is determined by, and determines, the pair
(chunk type, digest). -/
abbrev ObjPath := ChunkType × List Nat

/-- The repository directory tree: a list of (path, file contents) in
creation order. -/
abbrev Repo := List (ObjPath × List Nat)

/-- First file registered under a path (files are write-once, so at most one
entry per path ever exists in runs of the program). -/
def repoGet : Repo → ObjPath → Option (List Nat)
  | [], _ => none
  | (p, f) :: r, q => if p = q then some f else repoGet r q

/-- `digest_to_path`: the two fan-out components are `digest[0..1]` and
`digest[1..2]`, whose slicing panics when the digest has fewer than 2
bytes; `none` models that panic. -/
def digest_to_path (digest : List Nat) (chunk_type : ChunkType) : Option ObjPath :=
  if 2 ≤ digest.length then some (chunk_type, digest) else none

/-- `struct Chunker`.  `rollFed` is the byte sequence fed to the rolling
engine since it was last created; `shaFed` the bytes fed to the incremental
SHA-256 since its last reset (those two lists are the model of the
`rollsum::Bup` and `sha2::Sha256` states). -/
structure Chunker where
  rollFed : List Nat
  shaFed : List Nat
  bytes_total : Nat
  bytes_chunk : Nat
  chunks_total : Nat
  edges : List Edge
deriving DecidableEq, Repr

/-- `Chunker::new()` -/
def Chunker.new : Chunker :=
  { rollFed := [], shaFed := [], bytes_total := 0, bytes_chunk := 0,
    chunks_total := 0, edges := [] }

/-- `Chunker::edge_found`: push `(input_ofs, sha256 of the accumulated
chunk)`, bump `chunks_total`, perform the source's `bytes_chunk += 0`, and
reset the SHA-256 and the rolling engine. -/
def Chunker.edge_found (c : Chunker) (sha : List Nat → List Nat) (input_ofs : Nat) : Chunker :=
  { c with
    edges := c.edges ++ [(input_ofs, sha c.shaFed)],
    chunks_total := c.chunks_total + 1,
    bytes_chunk := c.bytes_chunk + 0,
    shaFed := [],
    rollFed := [] }

/-- The `while ofs < len` loop of `Chunker::input`.  In the `Some(count)`
branch the source feeds `buf[ofs..ofs+count]` to the SHA-256, advances
`ofs`, and calls `edge_found(ofs)`; in the `None` branch it feeds the whole
remainder and stops.  The guard `1 ≤ count ∧ ofs + count ≤ buf.length` is
the rolling-engine contract; outside it the source would loop forever
(count = 0) or panic (count past the end), which we model by stopping. -/
def inputLoop (fce : List Nat → List Nat → Option Nat) (sha : List Nat → List Nat)
    (buf : List Nat) (c : Chunker) (ofs : Nat) : Chunker :=
  if h : ofs < buf.length then
    match fce c.rollFed (buf.drop ofs) with
    | some count =>
      if hc : 1 ≤ count ∧ ofs + count ≤ buf.length then
        let c1 : Chunker :=
          { c with
            shaFed := c.shaFed ++ (buf.drop ofs).take count,
            bytes_chunk := c.bytes_chunk + count,
            bytes_total := c.bytes_total + count }
        inputLoop fce sha buf (c1.edge_found sha (ofs + count)) (ofs + count)
      else c
    | none =>
      { c with
        rollFed := c.rollFed ++ buf.drop ofs,
        shaFed := c.shaFed ++ buf.drop ofs,
        bytes_chunk := c.bytes_chunk + (buf.length - ofs),
        bytes_total := c.bytes_total + (buf.length - ofs) }
  else c
termination_by buf.length - ofs
decreasing_by omega

/-- `Chunker::input`: run the loop, return the accumulated edges and leave
the chunker with an emptied edge list (`mem::replace(&mut self.edges, vec!())`). -/
def Chunker.input (c : Chunker) (fce : List Nat → List Nat → Option Nat)
    (sha : List Nat → List Nat) (buf : List Nat) : List Edge × Chunker :=
  let c2 := inputLoop fce sha buf c 0
  (c2.edges, { c2 with edges := [] })

/-- `Chunker::finish`: if `bytes_chunk != 0`, call `edge_found(0)`; return
and drain the edges. -/
def Chunker.finish (c : Chunker) (sha : List Nat → List Nat) : List Edge × Chunker :=
  let c2 := if c.bytes_chunk ≠ 0 then c.edge_found sha 0 else c
  (c2.edges, { c2 with edges := [] })

/-- `enum ChunkWriterMessage` -/
inductive ChunkWriterMessage
  | Data (data : List Nat) (edges : List Edge) (k : ChunkType)
  | Exit
deriving DecidableEq, Repr

/-- The bounded reads of `store_data`: the reader hands out the stream in
successive pieces of (at most) `16 * 1024` bytes. -/
def readBufs (l : List Nat) : List (List Nat) :=
  if l = [] then [] else l.take 16384 :: readBufs (l.drop 16384)
termination_by l.length
decreasing_by
  rename_i h
  have h1 : 0 < l.length := List.length_pos.mpr h
  simp only [List.length_drop]
  omega

/-- One step of the read loop of `store_data`: feed a buffer to the
chunker, send `Data(buf, edges, kind)`, and append the edges' digests to
the index accumulator. -/
def passStep (fce : List Nat → List Nat → Option Nat) (sha : List Nat → List Nat)
    (kind : ChunkType) (acc : Chunker × List ChunkWriterMessage × List Nat)
    (buf : List Nat) : Chunker × List ChunkWriterMessage × List Nat :=
  let (c, msgs, index) := acc
  let (edges, c2) := c.input fce sha buf
  (c2, msgs ++ [ChunkWriterMessage.Data buf edges kind],
    index ++ (edges.map Prod.snd).flatten)

/-- One pass of `store_data` over an explicit sequence of reads (the read
loop plus the `finish` call): the messages sent on the channel, in order,
and the accumulated `index` bytes. -/
def storePassBufs (fce : List Nat → List Nat → Option Nat) (sha : List Nat → List Nat)
    (kind : ChunkType) (bufs : List (List Nat)) : List ChunkWriterMessage × List Nat :=
  let (c, msgs, index) := bufs.foldl (passStep fce sha kind) (Chunker.new, [], [])
  let (fedges, _) := c.finish sha
  (msgs ++ [ChunkWriterMessage.Data [] fedges kind],
    index ++ (fedges.map Prod.snd).flatten)

/-- One pass of `store_data` on a byte source (read in 16 KiB pieces). -/
def storePass (fce : List Nat → List Nat → Option Nat) (sha : List Nat → List Nat)
    (kind : ChunkType) (input : List Nat) : List ChunkWriterMessage × List Nat :=
  storePassBufs fce sha kind (readBufs input)

/-- `store_data`: run a pass; if the accumulated index exceeds 32 bytes,
recurse on it with `ChunkType::Index`, otherwise return it as the final
digest.  The messages of the recursive call follow those of this pass on
the channel.  `fuel` bounds the recursion depth (the source recurses
unboundedly); `none` means the bound was hit. -/
def store_data (fce : List Nat → List Nat → Option Nat) (sha : List Nat → List Nat) :
    Nat → List Nat → ChunkType → Option (List ChunkWriterMessage × List Nat)
  | 0, _, _ => none
  | fuel + 1, input, kind =>
    let (msgs, index) := storePass fce sha kind input
    if 32 < index.length then
      match store_data fce sha fuel index ChunkType.Index with
      | some (msgs2, root) => some (msgs ++ msgs2, root)
      | none => none
    else
      some (msgs, index)

/-- State of the `chunk_writer` thread. -/
structure WState where
  pending_data : List (List Nat)
  repo : Repo
  ctr : Nat
deriving DecidableEq, Repr

/-- Writer-side panics. -/
inductive WErr
  | pathPanic
  | slicePanic
  | noncePanic
  | exitAssert
deriving DecidableEq, Repr

/-- The body of the writer's `for &(ref ofs, ref sha256) in &edges` loop,
threading `(state, prev_ofs)`.  If the path exists: dedup hit, clear the
pending buffers.  Otherwise: drain the pending buffers and (when
`ofs != prev_ofs`) append `data[prev_ofs..ofs]` into the chunk plaintext,
seal it under the nonce `sha256[0..24]` with a fresh ephemeral keypair, and
register `eph_pub ++ cipher` under the path. -/
def processEdge (bseal : List Nat → List Nat → List Nat → List Nat → List Nat)
    (keys : Nat → List Nat × List Nat) (pk : List Nat) (kind : ChunkType)
    (data : List Nat) (acc : WState × Nat) (e : Edge) : Except WErr (WState × Nat) :=
  let (st, prev_ofs) := acc
  let (ofs, sha256) := e
  match digest_to_path sha256 kind with
  | none => .error .pathPanic
  | some path =>
    if (repoGet st.repo path).isSome then
      .ok ({ st with pending_data := [] }, ofs)
    else
      if ofs ≠ prev_ofs ∧ ¬(prev_ofs ≤ ofs ∧ ofs ≤ data.length) then
        .error .slicePanic
      else if 24 ≤ sha256.length then
        let eph := keys st.ctr
        let whole_data := st.pending_data.flatten ++
          (if ofs ≠ prev_ofs then (data.drop prev_ofs).take (ofs - prev_ofs) else [])
        let nonce := sha256.take 24
        let cipher := bseal whole_data nonce pk eph.2
        .ok ({ pending_data := [],
               repo := st.repo ++ [(path, eph.1 ++ cipher)],
               ctr := st.ctr + 1 }, ofs)
      else .error .noncePanic

/-- Handling of one `Data(data, edges, chunk_type)` message: push edge-less
buffers onto `pending_data`; otherwise process the edges in order and push
the suffix `data[prev_ofs..]` if any bytes remain. -/
def chunk_writer_msg (bseal : List Nat → List Nat → List Nat → List Nat → List Nat)
    (keys : Nat → List Nat × List Nat) (pk : List Nat) (st : WState)
    (data : List Nat) (edges : List Edge) (kind : ChunkType) : Except WErr WState :=
  if edges.isEmpty then
    .ok { st with pending_data := st.pending_data ++ [data] }
  else do
    let (st2, prev_ofs) ← edges.foldlM (processEdge bseal keys pk kind data) (st, 0)
    if prev_ofs ≠ data.length then
      if prev_ofs ≤ data.length then
        .ok { st2 with pending_data := st2.pending_data ++ [data.drop prev_ofs] }
      else .error .slicePanic
    else .ok st2

/-- `chunk_writer`: consume messages in order; on `Exit`, run
`assert!(pending_data.is_empty())` and return. -/
def chunk_writer (bseal : List Nat → List Nat → List Nat → List Nat → List Nat)
    (keys : Nat → List Nat × List Nat) (pk : List Nat) :
    WState → List ChunkWriterMessage → Except WErr WState
  | st, [] => .ok st
  | st, .Exit :: _ => if st.pending_data.isEmpty then .ok st else .error .exitAssert
  | st, .Data d es k :: ms => do
    chunk_writer bseal keys pk (← chunk_writer_msg bseal keys pk st d es k) ms

/-- Save-level errors. -/
inductive SErr
  | fuelOut
  | w (e : WErr)
deriving DecidableEq, Repr

/-- The `save` subcommand restricted to the core: spawn the writer, run
`store_data` on the input, send `Exit`, join.  Returns the writer's final
state and the root digest. -/
def save (fce : List Nat → List Nat → Option Nat) (sha : List Nat → List Nat)
    (bseal : List Nat → List Nat → List Nat → List Nat → List Nat)
    (keys : Nat → List Nat × List Nat) (pk : List Nat) (fuel : Nat)
    (repo0 : Repo) (ctr0 : Nat) (input : List Nat) : Except SErr (WState × List Nat) :=
  match store_data fce sha fuel input ChunkType.Data with
  | none => .error .fuelOut
  | some (msgs, root) =>
    match chunk_writer bseal keys pk ⟨[], repo0, ctr0⟩ (msgs ++ [.Exit]) with
    | .error e => .error (.w e)
    | .ok st => .ok (st, root)

/-- Restore-side panics. -/
inductive RErr
  | fuelOut
  | pathPanic
  | notFound
  | readPanic
  | noncePanic
  | openPanic
  | assertFail
deriving DecidableEq, Repr

/-- `chunk_type`: probe the repository for the digest's path under
`Index` first, then `Data`. -/
def chunk_type (repo : Repo) (digest : List Nat) : Except RErr (Option ChunkType) :=
  match digest_to_path digest ChunkType.Index with
  | none => .error .pathPanic
  | some pI =>
    if (repoGet repo pI).isSome then .ok (some ChunkType.Index)
    else
      match digest_to_path digest ChunkType.Data with
      | none => .error .pathPanic
      | some pD =>
        if (repoGet repo pD).isSome then .ok (some ChunkType.Data) else .ok none

/-- `read_file_to_writer`: split the file into the 32-byte ephemeral public
key and the ciphertext, rebuild the nonce from `digest[0..24]`, and open
the box with the repository secret key. -/
def read_file_to_writer (copen : List Nat → List Nat → List Nat → List Nat → Option (List Nat))
    (sk : List Nat) (repo : Repo) (path : ObjPath) (digest : List Nat) :
    Except RErr (List Nat) :=
  match repoGet repo path with
  | none => .error .readPanic
  | some file =>
    if 32 ≤ file.length then
      let ephemeral_pub := file.take 32
      let cipher := file.drop 32
      if 24 ≤ digest.length then
        match copen cipher (digest.take 24) ephemeral_pub sk with
        | some plain => .ok plain
        | none => .error .openPanic
      else .error .noncePanic
    else .error .readPanic

/-- `index_data.chunks(32)`. -/
def chunks32 (l : List Nat) : List (List Nat) :=
  if l = [] then [] else l.take 32 :: chunks32 (l.drop 32)
termination_by l.length
decreasing_by
  rename_i h
  have h1 : 0 < l.length := List.length_pos.mpr h
  simp only [List.length_drop]
  omega

mutual

/-- `restore_data_recursive`: classify the digest, then either copy the
decrypted data chunk to the writer or assert the index plaintext's length
is a multiple of 32 and recurse over its 32-byte slices in order.  `fuel`
bounds the recursion depth. -/
def restore_data_recursive (copen : List Nat → List Nat → List Nat → List Nat → Option (List Nat))
    (sk : List Nat) (repo : Repo) : Nat → List Nat → Except RErr (List Nat)
  | 0, _ => .error .fuelOut
  | fuel + 1, digest => do
    match ← chunk_type repo digest with
    | some ChunkType.Index =>
      match digest_to_path digest ChunkType.Index with
      | none => .error .pathPanic
      | some path => do
        let index_data ← read_file_to_writer copen sk repo path digest
        if index_data.length % 32 = 0 then
          restore_list copen sk repo fuel (chunks32 index_data)
        else .error .assertFail
    | some ChunkType.Data =>
      match digest_to_path digest ChunkType.Data with
      | none => .error .pathPanic
      | some path => read_file_to_writer copen sk repo path digest
    | none => .error .notFound
termination_by fuel _ => (fuel, 0)

/-- The `index_data.chunks(32).map(...).count()` walk: restore each child
digest in order, concatenating the bytes each one writes. -/
def restore_list (copen : List Nat → List Nat → List Nat → List Nat → Option (List Nat))
    (sk : List Nat) (repo : Repo) : Nat → List (List Nat) → Except RErr (List Nat)
  | _, [] => .ok []
  | fuel, d :: ds => do
    let out1 ← restore_data_recursive copen sk repo fuel d
    let out2 ← restore_list copen sk repo fuel ds
    .ok (out1 ++ out2)
termination_by fuel ds => (fuel, ds.length + 1)

end

/-! ### The plaintext slices delimited by the emitted edges

`cutEdges` and `cutMsgs` spell out the slicing that the writer performs:
within one buffer, each edge `(ofs, _)` closes the chunk made of the
pending bytes followed by `data[prev_ofs..ofs]`; the suffix after the last
edge joins the pending bytes.  These definitions give the claims their
notion of "the plaintext slices delimited by the emitted edges". -/

/-- Slices of one buffer delimited by its edge list, starting from offset
`prev` with `pending` bytes carried over; returns the slices and the offset
of the last edge. -/
def cutEdges (data : List Nat) : Nat → List Nat → List Edge → List (List Nat) × Nat
  | prev, _pending, [] => ([], prev)
  | prev, pending, (ofs, _) :: es =>
    let chunk := pending ++ (data.drop prev).take (ofs - prev)
    let r := cutEdges data ofs [] es
    (chunk :: r.1, r.2)

/-- Slices of a message sequence delimited by all emitted edges, threading
the pending bytes; returns the slices and the final unclosed tail. -/
def cutMsgs : List ChunkWriterMessage → List Nat → List (List Nat) × List Nat
  | [], pending => ([], pending)
  | .Exit :: _, pending => ([], pending)
  | .Data data es _ :: ms, pending =>
    if es = [] then cutMsgs ms (pending ++ data)
    else
      let r := cutEdges data 0 pending es
      let r2 := cutMsgs ms (data.drop r.2)
      (r.1 ++ r2.1, r2.2)

/-- The edges carried by a message. -/
def msgEdges : ChunkWriterMessage → List Edge
  | .Data _ es _ => es
  | .Exit => []

/-- Offsets of an edge list are monotone, bounded by `len`, and end at `p`. -/
def Chain (len : Nat) : Nat → List Edge → Nat → Prop
  | prev, [], p => p = prev
  | prev, (ofs, _) :: es, p => prev ≤ ofs ∧ ofs ≤ len ∧ Chain len ofs es p

/-- Every pass of `store_data` performed with `kind = Index` cuts its input
only at 32-byte-aligned boundaries (every index chunk's plaintext length is
a multiple of 32).  The source never checks this; it is exactly the
condition under which the restore walker's `% 32` bookkeeping is sound. -/
def storeAligned (fce : List Nat → List Nat → Option Nat) (sha : List Nat → List Nat) :
    Nat → List Nat → ChunkType → Bool
  | 0, _, _ => true
  | fuel + 1, input, kind =>
    let (msgs, index) := storePass fce sha kind input
    (match kind with
     | ChunkType.Data => true
     | ChunkType.Index => (cutMsgs msgs []).1.all (fun ch => ch.length % 32 = 0))
    && (if 32 < index.length then storeAligned fce sha fuel index ChunkType.Index else true)

/-- No digest is present in both the `index/` and the `chunks/` trees (the
restore walker classifies by probing `index/` first, so an aliased digest
would be mis-classified). -/
def noAlias (repo : Repo) : Prop :=
  ∀ d, (repoGet repo (ChunkType.Index, d)).isSome →
    (repoGet repo (ChunkType.Data, d)).isSome → False

/-- Every file in the repository is a well-formed chunk object: a 32-byte
ephemeral public key followed by the sealed box of a plaintext whose
SHA-256 is the digest in the file's path, under the nonce made of the
digest's first 24 bytes. -/
def RepoInv (sha : List Nat → List Nat)
    (bseal : List Nat → List Nat → List Nat → List Nat → List Nat)
    (keys : Nat → List Nat × List Nat) (pk : List Nat) (repo : Repo) : Prop :=
  ∀ e ∈ repo, ∃ q i, e.1.2 = sha q ∧
    e.2 = (keys i).1 ++ bseal q ((sha q).take 24) pk (keys i).2

/-- Feeding a sequence of buffers to a chunker through `Chunker::input`. -/
def feedAll (fce : List Nat → List Nat → Option Nat) (sha : List Nat → List Nat)
    (bufs : List (List Nat)) : Chunker :=
  bufs.foldl (fun c buf => (c.input fce sha buf).2) Chunker.new

/-! ### Concrete instances of the external collaborators

Used to run the model on concrete inputs: an injective 32-byte toy hash, a
rolling engine that never (or at chosen places) declares an edge, and a
transparent box (`bsealT`/`copenT` satisfy the box correctness contract). -/

/-- Injective encoding of byte lists into `Nat` (via `Nat.pair`). -/
def encodeL : List Nat → Nat
  | [] => 0
  | a :: l => Nat.pair a (encodeL l) + 1

/-- An injective 32-byte stand-in for SHA-256. -/
def shaT (x : List Nat) : List Nat := encodeL x :: List.replicate 31 0

/-- A rolling engine that never declares an edge. -/
def fceNone : List Nat → List Nat → Option Nat := fun _ _ => none

/-- A transparent authenticated box: the ciphertext is the plaintext. -/
def bsealT : List Nat → List Nat → List Nat → List Nat → List Nat := fun m _ _ _ => m

/-- Opening of the transparent box. -/
def copenT : List Nat → List Nat → List Nat → List Nat → Option (List Nat) :=
  fun c _ _ _ => some c

/-- A keypair supply with 32-byte public keys. -/
def keysT : Nat → List Nat × List Nat := fun _ => (List.replicate 32 0, [])

/-- Handy distinct 32-byte digests. -/
def cd (k : Nat) : List Nat := 9 :: k :: List.replicate 30 0

/-- The concrete index stream of the misalignment scenario: the
concatenation of the digests of the two data chunks `[1]` and `[2]`. -/
def cexI : List Nat := cd 1 ++ cd 2

/-- The second-level index stream of the misalignment scenario. -/
def cexI2 : List Nat := cd 3 ++ cd 4

/-- An injective 32-byte hash agreeing with `cd` on the chunks of the
misalignment scenario. -/
def cexSha (x : List Nat) : List Nat :=
  if x = [1] then cd 1
  else if x = [2] then cd 2
  else if x = [9] then cd 3
  else if x = cexI.drop 1 then cd 4
  else if x = cexI2 then cd 5
  else 8 :: encodeL x :: List.replicate 30 0

/-- A rolling engine that declares an edge after the first byte of the
original stream `[1, 2]` and after the first byte of the index stream
`cexI` — a 32-byte-misaligned cut of an index pass. -/
def cexFce (fed buf : List Nat) : Option Nat :=
  if fed = [] ∧ (buf = [1, 2] ∨ buf = cexI) then some 1 else none

/-- The repository produced by the misalignment scenario's save. -/
def cexRepo : Repo :=
  [((ChunkType.Data, cd 1), List.replicate 32 0 ++ [1]),
   ((ChunkType.Data, cd 2), List.replicate 32 0 ++ [2]),
   ((ChunkType.Index, cd 3), List.replicate 32 0 ++ [9]),
   ((ChunkType.Index, cd 4), List.replicate 32 0 ++ cexI.drop 1),
   ((ChunkType.Index, cd 5), List.replicate 32 0 ++ cexI2)]

/-- A rolling engine that declares an edge exactly at the end of the
one-byte stream `[5]`: the stream ends exactly on a declared edge. -/
def c3Fce (fed buf : List Nat) : Option Nat :=
  if fed = [] ∧ buf = [5] then some 1 else none

/-! ### Basic lemmas -/

theorem repoGet_mem {repo : Repo} {q : ObjPath} {f : List Nat}
    (h : repoGet repo q = some f) : (q, f) ∈ repo := by
  induction repo with
  | nil => simp [repoGet] at h
  | cons e r ih =>
    obtain ⟨p, g⟩ := e
    simp only [repoGet] at h
    by_cases hpq : p = q
    · subst hpq
      rw [if_pos rfl] at h
      cases h
      exact List.mem_cons_self _ _
    · rw [if_neg hpq] at h
      exact List.mem_cons_of_mem _ (ih h)

theorem repoGet_append_left {repo : Repo} {q : ObjPath} {f : List Nat}
    (h : repoGet repo q = some f) (ext : Repo) :
    repoGet (repo ++ ext) q = some f := by
  induction repo with
  | nil => simp [repoGet] at h
  | cons e r ih =>
    obtain ⟨p, g⟩ := e
    simp only [repoGet, List.cons_append] at h ⊢
    by_cases hpq : p = q
    · simpa [hpq] using h
    · rw [if_neg hpq] at h ⊢
      exact ih h

theorem repoGet_isSome_append {repo : Repo} {q : ObjPath}
    (h : (repoGet repo q).isSome) (ext : Repo) :
    (repoGet (repo ++ ext) q).isSome := by
  obtain ⟨f, hf⟩ := Option.isSome_iff_exists.mp h
  rw [repoGet_append_left hf]
  rfl

theorem readBufs_flatten (l : List Nat) : (readBufs l).flatten = l := by
  rw [readBufs]
  by_cases h : l = []
  · simp [h]
  · rw [if_neg h]
    simp only [List.flatten_cons]
    rw [readBufs_flatten (l.drop 16384)]
    exact List.take_append_drop _ _
termination_by l.length
decreasing_by
  have h1 : 0 < l.length := List.length_pos.mpr h
  simp only [List.length_drop]
  omega

theorem chain_le {len : Nat} : ∀ {es : List Edge} {prev p : Nat},
    Chain len prev es p → prev ≤ p ∧ p ≤ max prev len := by
  intro es
  induction es with
  | nil => intro prev p h; simp only [Chain] at h; omega
  | cons e es ih =>
    intro prev p h
    obtain ⟨o, d⟩ := e
    obtain ⟨h1, h2, h3⟩ := h
    have := ih h3
    omega

/-- Central specification of the `Chunker::input` loop: the edges it emits
are exactly the `cutEdges` slicing of the buffer starting from the current
SHA-256 remainder, each digest is the `sha` of its slice, and the byte
counters grow by the number of bytes consumed. -/
theorem inputLoop_spec (fce : List Nat → List Nat → Option Nat) (sha : List Nat → List Nat)
    (hfce : ∀ fed rest n, fce fed rest = some n → 1 ≤ n ∧ n ≤ rest.length)
    (buf : List Nat) (ofs : Nat) (c : Chunker) (hofs : ofs ≤ buf.length) :
    ∃ es cs p,
      (inputLoop fce sha buf c ofs).edges = c.edges ++ es ∧
      Chain buf.length ofs es p ∧
      cutEdges buf ofs c.shaFed es = (cs, p) ∧
      es.map Prod.snd = cs.map sha ∧
      (inputLoop fce sha buf c ofs).shaFed =
        (if es = [] then c.shaFed else []) ++ buf.drop p ∧
      (inputLoop fce sha buf c ofs).bytes_chunk = c.bytes_chunk + (buf.length - ofs) ∧
      (inputLoop fce sha buf c ofs).bytes_total = c.bytes_total + (buf.length - ofs) := by
  rw [inputLoop]
  by_cases h : ofs < buf.length
  · rw [dif_pos h]
    cases hm : fce c.rollFed (buf.drop ofs) with
    | none =>
      refine ⟨[], [], ofs, ?_, ?_, ?_, ?_, ?_, ?_, ?_⟩ <;>
        simp [cutEdges, Chain]
    | some count =>
      simp only []
      have hcc := hfce _ _ _ hm
      have hc : 1 ≤ count ∧ ofs + count ≤ buf.length := by
        refine ⟨hcc.1, ?_⟩
        have := hcc.2
        simp only [List.length_drop] at this
        omega
      rw [dif_pos hc]
      have hrec := inputLoop_spec fce sha hfce buf (ofs + count)
        (Chunker.edge_found
          { c with
            shaFed := c.shaFed ++ (buf.drop ofs).take count,
            bytes_chunk := c.bytes_chunk + count,
            bytes_total := c.bytes_total + count } sha (ofs + count))
        (by omega)
      obtain ⟨es1, cs1, p1, he, hch, hcut, hd, hsf, hbc, hbt⟩ := hrec
      refine ⟨(ofs + count, sha (c.shaFed ++ (buf.drop ofs).take count)) :: es1,
        (c.shaFed ++ (buf.drop ofs).take count) :: cs1, p1, ?_, ?_, ?_, ?_, ?_, ?_, ?_⟩
      · rw [he]
        simp [Chunker.edge_found]
      · exact ⟨by omega, hc.2, hch⟩
      · simp only [cutEdges]
        rw [show ofs + count - ofs = count by omega]
        simp only [Chunker.edge_found] at hcut
        rw [hcut]
      · simp only [List.map_cons, hd]
      · rw [hsf]
        simp [Chunker.edge_found]
      · rw [hbc]
        simp only [Chunker.edge_found]
        omega
      · rw [hbt]
        simp only [Chunker.edge_found]
        omega
  · rw [dif_neg h]
    have hofs' : ofs = buf.length := by omega
    refine ⟨[], [], ofs, by simp, rfl, rfl, rfl, ?_, by omega, by omega⟩
    simp [hofs', List.drop_length]
termination_by buf.length - ofs
decreasing_by omega

theorem repoGet_none_append {repo : Repo} {q : ObjPath}
    (h : repoGet repo q = none) (ext : Repo) :
    repoGet (repo ++ ext) q = repoGet ext q := by
  induction repo with
  | nil => simp
  | cons e r ih =>
    obtain ⟨p, g⟩ := e
    simp only [repoGet, List.cons_append] at h ⊢
    by_cases hpq : p = q
    · simp [hpq] at h
    · rw [if_neg hpq] at h ⊢
      exact ih h

theorem repoGet_single {q : ObjPath} {f : List Nat} : repoGet [(q, f)] q = some f := by
  simp [repoGet]

/-- Concatenating the slices, the uncut leftover and the bytes after the
last edge recovers the pending bytes plus the buffer suffix. -/
theorem cutEdges_flatten {data : List Nat} : ∀ {es : List Edge} {prev p : Nat}
    {pending : List Nat} {cs : List (List Nat)},
    Chain data.length prev es p →
    cutEdges data prev pending es = (cs, p) →
    cs.flatten ++ ((if es = [] then pending else []) ++ data.drop p) =
      pending ++ data.drop prev := by
  intro es
  induction es with
  | nil =>
    intro prev p pending cs hch hcut
    simp only [cutEdges] at hcut
    cases hcut
    simp
  | cons e es ih =>
    intro prev p pending cs hch hcut
    obtain ⟨ofs, d⟩ := e
    obtain ⟨h1, h2, h3⟩ := hch
    simp only [cutEdges] at hcut
    have hrec : cutEdges data ofs [] es = ((cutEdges data ofs [] es).1, (cutEdges data ofs [] es).2) := rfl
    have hp : (cutEdges data ofs [] es).2 = p := by
      rw [Prod.ext_iff] at hcut
      exact hcut.2
    have hcs : cs = (pending ++ (data.drop prev).take (ofs - prev)) :: (cutEdges data ofs [] es).1 := by
      rw [Prod.ext_iff] at hcut
      exact hcut.1.symm
    have := @ih ofs p [] ((cutEdges data ofs [] es).1) h3 (by rw [hrec, hp])
    subst hcs
    simp only [List.flatten_cons, List.cons_ne_self]
    have hiftriv : (if es = [] then ([] : List Nat) else []) = [] := by
      split <;> rfl
    rw [hiftriv] at this
    simp only [List.nil_append] at this
    simp only [if_neg (List.cons_ne_nil _ _ : (ofs, d) :: es ≠ []), List.nil_append]
    rw [List.append_assoc, this, List.append_assoc]
    congr 1
    have hdd : (data.drop prev).drop (ofs - prev) = data.drop ofs := by
      rw [List.drop_drop]
      congr 1
      omega
    calc (data.drop prev).take (ofs - prev) ++ data.drop ofs
        = (data.drop prev).take (ofs - prev) ++ (data.drop prev).drop (ofs - prev) := by rw [hdd]
      _ = data.drop prev := List.take_append_drop _ _

/-- Specification of one `Chunker::input` call on a chunker with drained
edges. -/
theorem input_spec (fce : List Nat → List Nat → Option Nat) (sha : List Nat → List Nat)
    (hfce : ∀ fed rest n, fce fed rest = some n → 1 ≤ n ∧ n ≤ rest.length)
    (buf : List Nat) (c : Chunker) (hed : c.edges = []) :
    ∃ es c2 cs p,
      c.input fce sha buf = (es, c2) ∧
      Chain buf.length 0 es p ∧
      cutEdges buf 0 c.shaFed es = (cs, p) ∧
      es.map Prod.snd = cs.map sha ∧
      c2.edges = [] ∧
      c2.shaFed = (if es = [] then c.shaFed else []) ++ buf.drop p ∧
      cs.flatten ++ c2.shaFed = c.shaFed ++ buf ∧
      c2.bytes_chunk = c.bytes_chunk + buf.length ∧
      c2.bytes_total = c.bytes_total + buf.length := by
  obtain ⟨es, cs, p, he, hch, hcut, hd, hsf, hbc, hbt⟩ :=
    inputLoop_spec fce sha hfce buf 0 c (Nat.zero_le _)
  rw [hed] at he
  simp only [List.nil_append] at he
  refine ⟨es, { inputLoop fce sha buf c 0 with edges := [] }, cs, p, ?_, hch, hcut, hd,
    rfl, ?_, ?_, ?_, ?_⟩
  · simp only [Chunker.input]
    rw [he]
  · simpa using hsf
  · have := cutEdges_flatten hch hcut
    simp only [List.drop_zero] at this
    rw [show ({ inputLoop fce sha buf c 0 with edges := [] } : Chunker).shaFed
        = (inputLoop fce sha buf c 0).shaFed from rfl, hsf]
    rw [← this]
  · simpa using hbc
  · simpa using hbt

theorem digest_to_path_of_len {d : List Nat} (h : 2 ≤ d.length) (k : ChunkType) :
    digest_to_path d k = some (k, d) := by
  simp [digest_to_path, h]

/-- Specification of the writer's edge loop on an edge list whose offsets
chain through the buffer and whose digests hash the `cutEdges` slices:
the loop succeeds, drains the pending buffers, only appends to the
repository (and appends nothing when every slice is already stored),
preserves the repository invariant, and afterwards every slice is stored
under its digest and kind. -/
theorem writer_edges_spec (bseal : List Nat → List Nat → List Nat → List Nat → List Nat)
    (keys : Nat → List Nat × List Nat) (pk : List Nat)
    (sha : List Nat → List Nat) (hsha32 : ∀ x, (sha x).length = 32)
    (kind : ChunkType) (data : List Nat) :
    ∀ (es : List Edge) (st : WState) (prev p : Nat) (cs : List (List Nat)),
      Chain data.length prev es p →
      cutEdges data prev st.pending_data.flatten es = (cs, p) →
      es.map Prod.snd = cs.map sha →
      ∃ st2,
        es.foldlM (processEdge bseal keys pk kind data) (st, prev) = .ok (st2, p) ∧
        st2.pending_data = (if es = [] then st.pending_data else []) ∧
        (∃ E, st2.repo = st.repo ++ E) ∧
        (RepoInv sha bseal keys pk st.repo → RepoInv sha bseal keys pk st2.repo) ∧
        (∀ ch ∈ cs, (repoGet st2.repo (kind, sha ch)).isSome) ∧
        ((∀ ch ∈ cs, (repoGet st.repo (kind, sha ch)).isSome) →
          st2.repo = st.repo ∧ st2.ctr = st.ctr) := by
  intro es
  induction es with
  | nil =>
    intro st prev p cs hch hcut hd
    simp only [cutEdges] at hcut
    cases hcut
    refine ⟨st, ?_, by simp, ⟨[], by simp⟩, fun h => h, by simp, fun _ => ⟨rfl, rfl⟩⟩
    simp only [List.foldlM_nil]
    rfl
  | cons e es ih =>
    intro st prev p cs hch hcut hd
    obtain ⟨ofs, dg⟩ := e
    obtain ⟨h1, h2, h3⟩ := hch
    simp only [cutEdges] at hcut
    have hp : (cutEdges data ofs [] es).2 = p := congrArg Prod.snd hcut
    have hcs : cs = (st.pending_data.flatten ++ (data.drop prev).take (ofs - prev))
        :: (cutEdges data ofs [] es).1 := (congrArg Prod.fst hcut).symm
    subst hcs
    simp only [List.map_cons, List.cons.injEq] at hd
    obtain ⟨hdg, hd'⟩ := hd
    have hdglen : dg.length = 32 := by rw [hdg]; exact hsha32 _
    have hpath : digest_to_path dg kind = some (kind, dg) :=
      digest_to_path_of_len (by omega) kind
    simp only [List.foldlM_cons]
    by_cases hmem : (repoGet st.repo (kind, dg)).isSome
    · -- dedup hit: clear pending buffers and advance
      have hstep : processEdge bseal keys pk kind data (st, prev) (ofs, dg) =
          .ok ({ st with pending_data := [] }, ofs) := by
        simp only [processEdge, hpath, hmem, if_pos]
      rw [hstep]
      obtain ⟨st2, hfold, hpend, ⟨E, hrepo⟩, hinv, hcov, hsame⟩ :=
        ih { st with pending_data := [] } ofs p _ h3 (by rw [← hp]; rfl) hd'
      refine ⟨st2, ?_, ?_, ⟨E, hrepo⟩, hinv, ?_, ?_⟩
      · simpa using hfold
      · rw [hpend]; split <;> rfl
      · intro ch hch
        rcases List.mem_cons.mp hch with h | h
        · subst h
          rw [← hdg, hrepo]
          exact repoGet_isSome_append hmem E
        · exact hcov ch h
      · intro hall
        exact hsame fun ch h => hall ch (List.mem_cons_of_mem _ h)
    · -- create the chunk file
      have hmem' : repoGet st.repo (kind, dg) = none :=
        Option.not_isSome_iff_eq_none.mp hmem
      have hg1 : ¬(ofs ≠ prev ∧ ¬(prev ≤ ofs ∧ ofs ≤ data.length)) := by
        intro hcontra
        exact hcontra.2 ⟨h1, h2⟩
      have hwhole : st.pending_data.flatten ++
          (if ofs ≠ prev then (data.drop prev).take (ofs - prev) else []) =
          st.pending_data.flatten ++ (data.drop prev).take (ofs - prev) := by
        by_cases hop : ofs = prev
        · subst hop; simp
        · simp [hop]
      have hstep : processEdge bseal keys pk kind data (st, prev) (ofs, dg) =
          .ok ({ pending_data := [],
                 repo := st.repo ++ [((kind, dg), (keys st.ctr).1 ++
                   bseal (st.pending_data.flatten ++ (data.drop prev).take (ofs - prev))
                     (dg.take 24) pk (keys st.ctr).2)],
                 ctr := st.ctr + 1 }, ofs) := by
        simp only [processEdge, hpath, hmem, if_neg hg1, if_pos (by omega : 24 ≤ dg.length)]
        simp only [Bool.false_eq_true, if_false, hwhole]
      rw [hstep]
      set ch0 := st.pending_data.flatten ++ (data.drop prev).take (ofs - prev) with hch0
      set entry : ObjPath × List Nat := ((kind, dg), (keys st.ctr).1 ++
        bseal ch0 (dg.take 24) pk (keys st.ctr).2) with hentry
      obtain ⟨st2, hfold, hpend, ⟨E, hrepo⟩, hinv, hcov, hsame⟩ :=
        ih { pending_data := [], repo := st.repo ++ [entry], ctr := st.ctr + 1 }
          ofs p _ h3 (by rw [← hp]; rfl) hd'
      refine ⟨st2, ?_, ?_, ⟨entry :: E, by simpa using hrepo⟩, ?_, ?_, ?_⟩
      · simpa using hfold
      · rw [hpend]; split <;> rfl
      · intro hri
        refine hinv ?_
        intro e he
        rcases List.mem_append.mp he with h | h
        · exact hri e h
        · rw [List.mem_singleton] at h
          subst h
          exact ⟨ch0, st.ctr, by simp [hentry, hdg]⟩
      · intro ch hchm
        rcases List.mem_cons.mp hchm with h | h
        · subst h
          rw [hrepo, ← hdg]
          refine repoGet_isSome_append ?_ E
          rw [repoGet_none_append hmem', hentry, repoGet_single]
          rfl
        · exact hcov ch h
      · intro hall
        exact absurd (by simpa [hdg] using hall ch0 (List.mem_cons_self _ _)) hmem

/-- Specification of the writer's handling of one `Data` message that
carries at least one edge. -/
theorem chunk_writer_msg_spec (bseal : List Nat → List Nat → List Nat → List Nat → List Nat)
    (keys : Nat → List Nat × List Nat) (pk : List Nat)
    (sha : List Nat → List Nat) (hsha32 : ∀ x, (sha x).length = 32)
    (kind : ChunkType) (data : List Nat)
    (es : List Edge) (hne : es ≠ []) (st : WState) (p : Nat) (cs : List (List Nat))
    (hch : Chain data.length 0 es p)
    (hcut : cutEdges data 0 st.pending_data.flatten es = (cs, p))
    (hd : es.map Prod.snd = cs.map sha) :
    ∃ st3,
      chunk_writer_msg bseal keys pk st data es kind = .ok st3 ∧
      st3.pending_data = (if p = data.length then [] else [data.drop p]) ∧
      st3.pending_data.flatten = data.drop p ∧
      (∃ E, st3.repo = st.repo ++ E) ∧
      (RepoInv sha bseal keys pk st.repo → RepoInv sha bseal keys pk st3.repo) ∧
      (∀ ch ∈ cs, (repoGet st3.repo (kind, sha ch)).isSome) ∧
      ((∀ ch ∈ cs, (repoGet st.repo (kind, sha ch)).isSome) →
        st3.repo = st.repo ∧ st3.ctr = st.ctr) := by
  obtain ⟨st2, hfold, hpend, hext, hinv, hcov, hsame⟩ :=
    writer_edges_spec bseal keys pk sha hsha32 kind data es st 0 p cs hch hcut hd
  have hple : p ≤ data.length := by
    have := chain_le hch
    omega
  have hemp : es.isEmpty = false := by
    cases es with
    | nil => exact absurd rfl hne
    | cons a l => rfl
  rw [if_neg hne] at hpend
  simp only [chunk_writer_msg, hemp, Bool.false_eq_true, if_false, hfold]
  have hshape : ∀ st3 : WState,
      ((do
        let r ← (Except.ok (st2, p) : Except WErr (WState × Nat))
        if r.2 ≠ data.length then
          if r.2 ≤ data.length then
            Except.ok { r.1 with pending_data := r.1.pending_data ++ [data.drop r.2] }
          else Except.error WErr.slicePanic
        else Except.ok r.1) = Except.ok st3) ↔
      ((if p ≠ data.length then
          if p ≤ data.length then
            Except.ok { st2 with pending_data := st2.pending_data ++ [data.drop p] }
          else Except.error WErr.slicePanic
        else Except.ok st2) = Except.ok st3) := by
    intro st3
    exact Iff.rfl
  by_cases hpl : p = data.length
  · refine ⟨st2, ?_, ?_, ?_, hext, hinv, hcov, hsame⟩
    · rw [hshape st2, if_neg (by omega)]
    · simp [hpl, hpend]
    · simp [hpend, hpl, List.drop_length]
  · refine ⟨{ st2 with pending_data := st2.pending_data ++ [data.drop p] }, ?_, ?_, ?_, ?_, ?_, ?_, ?_⟩
    · rw [hshape _, if_pos hpl, if_pos hple]
    · simp [hpend, hpl]
    · simp [hpend, hpl]
    · simpa using hext
    · simpa using hinv
    · simpa using hcov
    · simpa using hsame

theorem chunk_writer_cons_data {bseal : List Nat → List Nat → List Nat → List Nat → List Nat}
    {keys : Nat → List Nat × List Nat} {pk : List Nat} {st st' : WState}
    {d : List Nat} {es : List Edge} {k : ChunkType} (ms : List ChunkWriterMessage)
    (h : chunk_writer_msg bseal keys pk st d es k = .ok st') :
    chunk_writer bseal keys pk st (.Data d es k :: ms) =
      chunk_writer bseal keys pk st' ms := by
  simp only [chunk_writer, h]
  rfl

theorem chunk_writer_cons_noedge {bseal : List Nat → List Nat → List Nat → List Nat → List Nat}
    {keys : Nat → List Nat × List Nat} {pk : List Nat} {st : WState}
    {d : List Nat} {k : ChunkType} (ms : List ChunkWriterMessage) :
    chunk_writer bseal keys pk st (.Data d [] k :: ms) =
      chunk_writer bseal keys pk { st with pending_data := st.pending_data ++ [d] } ms := by
  apply chunk_writer_cons_data
  simp [chunk_writer_msg]

theorem cutMsgs_cons_noedge (data : List Nat) (k : ChunkType)
    (ms : List ChunkWriterMessage) (pending : List Nat) :
    cutMsgs (.Data data [] k :: ms) pending = cutMsgs ms (pending ++ data) := by
  simp [cutMsgs]

theorem cutMsgs_cons_edges {es : List Edge} (hne : es ≠ []) (data : List Nat)
    (k : ChunkType) (ms : List ChunkWriterMessage) (pending : List Nat) :
    cutMsgs (.Data data es k :: ms) pending =
      ((cutEdges data 0 pending es).1 ++
        (cutMsgs ms (data.drop (cutEdges data 0 pending es).2)).1,
       (cutMsgs ms (data.drop (cutEdges data 0 pending es).2)).2) := by
  simp [cutMsgs, hne]

/-- The read loop of one `store_data` pass, run in lockstep with the
writer: the chunker's slices are cut out by the writer, stored under their
digests, and the writer's pending buffers always hold exactly the bytes the
chunker has accumulated since the last edge. -/
theorem passFold_spec (fce : List Nat → List Nat → Option Nat) (sha : List Nat → List Nat)
    (bseal : List Nat → List Nat → List Nat → List Nat → List Nat)
    (keys : Nat → List Nat × List Nat) (pk : List Nat)
    (hfce : ∀ fed rest n, fce fed rest = some n → 1 ≤ n ∧ n ≤ rest.length)
    (hsha32 : ∀ x, (sha x).length = 32) (kind : ChunkType) :
    ∀ (bufs : List (List Nat)) (c : Chunker) (st : WState),
      c.edges = [] →
      st.pending_data.flatten = c.shaFed →
      ∃ msgs index cs c2 st2,
        (∀ ms0 ix0, bufs.foldl (passStep fce sha kind) (c, ms0, ix0) =
          (c2, ms0 ++ msgs, ix0 ++ index)) ∧
        (∀ ms2, chunk_writer bseal keys pk st (msgs ++ ms2) =
          chunk_writer bseal keys pk st2 ms2) ∧
        (∀ m ∈ msgs, m ≠ ChunkWriterMessage.Exit) ∧
        cutMsgs msgs c.shaFed = (cs, c2.shaFed) ∧
        (msgs.flatMap msgEdges).map Prod.snd = cs.map sha ∧
        index = (cs.map sha).flatten ∧
        cs.flatten ++ c2.shaFed = c.shaFed ++ bufs.flatten ∧
        c2.edges = [] ∧
        c2.bytes_chunk = c.bytes_chunk + bufs.flatten.length ∧
        st2.pending_data.flatten = c2.shaFed ∧
        (∃ E, st2.repo = st.repo ++ E) ∧
        (RepoInv sha bseal keys pk st.repo → RepoInv sha bseal keys pk st2.repo) ∧
        (∀ ch ∈ cs, (repoGet st2.repo (kind, sha ch)).isSome) ∧
        ((∀ ch ∈ cs, (repoGet st.repo (kind, sha ch)).isSome) →
          st2.repo = st.repo ∧ st2.ctr = st.ctr) := by
  intro bufs
  induction bufs with
  | nil =>
    intro c st hce hpf
    exact ⟨[], [], [], c, st, by simp, fun ms2 => rfl, by simp, by simp [cutMsgs],
      by simp, rfl, by simp, hce, by simp, hpf, ⟨[], by simp⟩, fun h => h, by simp,
      fun _ => ⟨rfl, rfl⟩⟩
  | cons buf bufs ih =>
    intro c st hce hpf
    obtain ⟨es, cA, cs1, p, hin, hch, hcut, hd, hcAe, hcAsha, hflat1, hbc1, _⟩ :=
      input_spec fce sha hfce buf c hce
    have hstep : ∀ ms0 ix0, passStep fce sha kind (c, ms0, ix0) buf =
        (cA, ms0 ++ [ChunkWriterMessage.Data buf es kind], ix0 ++ (es.map Prod.snd).flatten) := by
      intro ms0 ix0
      simp only [passStep, hin]
    by_cases hes : es = []
    · -- no edge in this buffer: it joins the pending buffers
      subst hes
      have hcs1 : cs1 = [] := by
        simp only [cutEdges] at hcut
        exact (congrArg Prod.fst hcut).symm
      have hp0 : p = 0 := by
        simp only [cutEdges] at hcut
        exact (congrArg Prod.snd hcut).symm
      subst hcs1 hp0
      have hshaA : cA.shaFed = c.shaFed ++ buf := by
        simpa using hcAsha
      obtain ⟨msgs', index', cs', c2, st2, hfold, hw, hnx, hcm, hfm, hix, hfl, hc2e,
        hc2bc, hst2p, hext, hinv, hcov, hsame⟩ :=
        ih cA { st with pending_data := st.pending_data ++ [buf] } hcAe
          (by simp [hpf, hshaA])
      refine ⟨ChunkWriterMessage.Data buf [] kind :: msgs', index', cs', c2, st2,
        ?_, ?_, ?_, ?_, ?_, ?_, ?_, hc2e, ?_, hst2p, ?_, ?_, ?_, ?_⟩
      · intro ms0 ix0
        rw [List.foldl_cons, hstep, hfold]
        simp
      · intro ms2
        rw [List.cons_append, chunk_writer_cons_noedge, hw]
      · intro m hm
        rcases List.mem_cons.mp hm with h | h
        · subst h; intro hcon; cases hcon
        · exact hnx m h
      · rw [cutMsgs_cons_noedge, show c.shaFed ++ buf = cA.shaFed from hshaA.symm, hcm]
      · simpa [msgEdges] using hfm
      · simpa using hix
      · rw [hfl, hshaA]
        simp
      · rw [hc2bc, hbc1]
        simp only [List.flatten_cons, List.length_append]
        omega
      · simpa using hext
      · simpa using hinv
      · simpa using hcov
      · simpa using hsame
    · -- at least one edge: the writer cuts and stores the slices
      have hcutW : cutEdges buf 0 st.pending_data.flatten es = (cs1, p) := by
        rw [hpf]; exact hcut
      obtain ⟨st3, hmsg, _, hp3f, ⟨E1, hrepo3⟩, hinv3, hcov3, hsame3⟩ :=
        chunk_writer_msg_spec bseal keys pk sha hsha32 kind buf es hes st p cs1 hch hcutW hd
      have hshaA : cA.shaFed = buf.drop p := by
        rw [hcAsha, if_neg hes]
        rfl
      obtain ⟨msgs', index', cs', c2, st2, hfold, hw, hnx, hcm, hfm, hix, hfl, hc2e,
        hc2bc, hst2p, ⟨E2, hrepo2⟩, hinv, hcov, hsame⟩ :=
        ih cA st3 hcAe (by rw [hp3f, hshaA])
      refine ⟨ChunkWriterMessage.Data buf es kind :: msgs',
        (es.map Prod.snd).flatten ++ index', cs1 ++ cs', c2, st2,
        ?_, ?_, ?_, ?_, ?_, ?_, ?_, hc2e, ?_, hst2p, ?_, ?_, ?_, ?_⟩
      · intro ms0 ix0
        rw [List.foldl_cons, hstep, hfold]
        simp
      · intro ms2
        rw [List.cons_append, chunk_writer_cons_data _ hmsg, hw]
      · intro m hm
        rcases List.mem_cons.mp hm with h | h
        · subst h; intro hcon; cases hcon
        · exact hnx m h
      · rw [cutMsgs_cons_edges hes, hcut]
        rw [show (cs1, p).2 = p from rfl, show buf.drop p = cA.shaFed from hshaA.symm, hcm]
      · simp only [List.flatMap_cons, msgEdges, List.map_append, hd, hfm]
      · rw [hix, hd]
        simp
      · rw [List.flatten_append, List.append_assoc, hfl, ← List.append_assoc, hflat1]
        simp
      · rw [hc2bc, hbc1]
        simp only [List.flatten_cons, List.length_append]
        omega
      · exact ⟨E1 ++ E2, by rw [hrepo2, hrepo3, List.append_assoc]⟩
      · intro hri
        exact hinv (hinv3 hri)
      · intro ch hchm
        rcases List.mem_append.mp hchm with h | h
        · rw [hrepo2]
          exact repoGet_isSome_append (hcov3 ch h) E2
        · exact hcov ch h
      · intro hall
        obtain ⟨hr3, hc3⟩ := hsame3 fun ch h => hall ch (List.mem_append_left _ h)
        obtain ⟨hr2, hc2⟩ := hsame (by rw [hr3]; exact fun ch h => hall ch (List.mem_append_right _ h))
        exact ⟨by rw [hr2, hr3], by rw [hc2, hc3]⟩

theorem cutMsgs_append (m1 m2 : List ChunkWriterMessage) (pending : List Nat)
    (hnx : ∀ m ∈ m1, m ≠ ChunkWriterMessage.Exit) :
    cutMsgs (m1 ++ m2) pending =
      ((cutMsgs m1 pending).1 ++ (cutMsgs m2 (cutMsgs m1 pending).2).1,
       (cutMsgs m2 (cutMsgs m1 pending).2).2) := by
  induction m1 generalizing pending with
  | nil => simp [cutMsgs]
  | cons m ms ih =>
    cases m with
    | Exit => exact absurd rfl (hnx _ (List.mem_cons_self _ _))
    | Data d es k =>
      have hnx' : ∀ m ∈ ms, m ≠ ChunkWriterMessage.Exit :=
        fun m h => hnx m (List.mem_cons_of_mem _ h)
      by_cases hes : es = []
      · subst hes
        rw [List.cons_append, cutMsgs_cons_noedge, cutMsgs_cons_noedge, ih _ hnx']
      · rw [List.cons_append, cutMsgs_cons_edges hes, cutMsgs_cons_edges hes, ih _ hnx']
        simp [List.append_assoc]

/-- Full specification of one `store_data` pass (read loop plus `finish`),
composed with the writer: the messages cut into slices `csf` whose
concatenation is the input, whose digests form the index accumulator, and
which all end up stored under their digests. -/
theorem storePassBufs_spec (fce : List Nat → List Nat → Option Nat) (sha : List Nat → List Nat)
    (bseal : List Nat → List Nat → List Nat → List Nat → List Nat)
    (keys : Nat → List Nat × List Nat) (pk : List Nat)
    (hfce : ∀ fed rest n, fce fed rest = some n → 1 ≤ n ∧ n ≤ rest.length)
    (hsha32 : ∀ x, (sha x).length = 32) (kind : ChunkType)
    (bufs : List (List Nat)) (st : WState) (hpend : st.pending_data = []) :
    ∃ csf st2,
      (∀ ms2, chunk_writer bseal keys pk st ((storePassBufs fce sha kind bufs).1 ++ ms2) =
        chunk_writer bseal keys pk st2 ms2) ∧
      (∀ m ∈ (storePassBufs fce sha kind bufs).1, m ≠ ChunkWriterMessage.Exit) ∧
      cutMsgs (storePassBufs fce sha kind bufs).1 [] = (csf, []) ∧
      (((storePassBufs fce sha kind bufs).1.flatMap msgEdges).map Prod.snd = csf.map sha) ∧
      (storePassBufs fce sha kind bufs).2 = (csf.map sha).flatten ∧
      csf.flatten = bufs.flatten ∧
      (bufs.flatten ≠ [] → st2.pending_data = [] ∧ csf ≠ []) ∧
      (∃ E, st2.repo = st.repo ++ E) ∧
      (RepoInv sha bseal keys pk st.repo → RepoInv sha bseal keys pk st2.repo) ∧
      (∀ ch ∈ csf, (repoGet st2.repo (kind, sha ch)).isSome) ∧
      ((∀ ch ∈ csf, (repoGet st.repo (kind, sha ch)).isSome) →
        st2.repo = st.repo ∧ st2.ctr = st.ctr) := by
  obtain ⟨msgs, index, cs, c2, st2, hfold, hw, hnx, hcm, hfm, hix, hfl, hc2e, hc2bc,
    hst2p, hext, hinv, hcov, hsame⟩ :=
    passFold_spec fce sha bseal keys pk hfce hsha32 kind bufs Chunker.new st rfl
      (by rw [hpend]; rfl)
  have hf0 := hfold [] []
  rcases hfin : c2.finish sha with ⟨fedges, cF⟩
  have hsb : storePassBufs fce sha kind bufs =
      (msgs ++ [ChunkWriterMessage.Data [] fedges kind],
       index ++ (fedges.map Prod.snd).flatten) := by
    simp only [storePassBufs, hf0, hfin, List.nil_append]
  have hbc : c2.bytes_chunk = bufs.flatten.length := by
    rw [hc2bc]
    simp [Chunker.new]
  have hfe : fedges = if c2.bytes_chunk ≠ 0 then c2.edges ++ [(0, sha c2.shaFed)] else c2.edges := by
    have h1 : fedges = (c2.finish sha).1 := by rw [hfin]
    rw [h1]
    show (if c2.bytes_chunk ≠ 0 then c2.edge_found sha 0 else c2).edges = _
    split <;> rfl
  have hnewsha : (Chunker.new).shaFed = [] := rfl
  rw [hnewsha] at hcm
  rw [hsb]
  by_cases hz : bufs.flatten = []
  · -- the whole pass saw no byte: `finish` emits no edge
    have hfedges : fedges = [] := by
      rw [hfe, hbc, hz]
      simp [hc2e]
    subst hfedges
    have hfl' : cs.flatten = [] ∧ c2.shaFed = [] := by
      rw [hz] at hfl
      exact List.append_eq_nil.mp (by simpa [Chunker.new] using hfl)
    refine ⟨cs, { st2 with pending_data := st2.pending_data ++ [[]] },
      ?_, ?_, ?_, ?_, ?_, ?_, ?_, ?_, ?_, ?_, ?_⟩
    · intro ms2
      rw [List.append_assoc, hw, List.singleton_append, chunk_writer_cons_noedge]
    · intro m hm
      rcases List.mem_append.mp hm with h | h
      · exact hnx m h
      · rw [List.mem_singleton] at h
        subst h
        intro hcon
        cases hcon
    · rw [cutMsgs_append _ _ _ hnx, hcm]
      rw [show ((cs, c2.shaFed) : List (List Nat) × List Nat).2 = c2.shaFed from rfl]
      rw [cutMsgs_cons_noedge]
      simp [cutMsgs, hfl'.2]
    · simp only [List.flatMap_append, List.flatMap_cons, msgEdges, List.flatMap_nil,
        List.append_nil, hfm]
    · simpa using hix
    · rw [hfl'.1, hz]
    · intro h
      exact absurd hz h
    · obtain ⟨E, hE⟩ := hext
      exact ⟨E, by simpa using hE⟩
    · intro h
      simpa using hinv h
    · simpa using hcov
    · intro hall
      have := hsame hall
      exact ⟨by simpa using this.1, by simpa using this.2⟩
  · -- at least one byte was consumed: `finish` emits the tail edge
    have hfedges : fedges = [(0, sha c2.shaFed)] := by
      rw [hfe, hbc, if_pos (by simpa using List.length_pos.mpr hz |>.ne'), hc2e]
      rfl
    subst hfedges
    have hch0 : Chain (List.length ([] : List Nat)) 0 [(0, sha c2.shaFed)] 0 := by
      simp [Chain]
    have hcut0 : cutEdges [] 0 st2.pending_data.flatten [(0, sha c2.shaFed)] =
        ([c2.shaFed], 0) := by
      simp [cutEdges, hst2p]
    obtain ⟨st3, hmsg, hp3, _, ⟨E1, hrepo3⟩, hinv3, hcov3, hsame3⟩ :=
      chunk_writer_msg_spec bseal keys pk sha hsha32 kind []
        [(0, sha c2.shaFed)] (by simp) st2 0 [c2.shaFed] hch0 hcut0 (by simp)
    have hp3' : st3.pending_data = [] := by
      simpa using hp3
    refine ⟨cs ++ [c2.shaFed], st3, ?_, ?_, ?_, ?_, ?_, ?_, ?_, ?_, ?_, ?_, ?_⟩
    · intro ms2
      rw [List.append_assoc, hw, List.singleton_append, chunk_writer_cons_data _ hmsg]
    · intro m hm
      rcases List.mem_append.mp hm with h | h
      · exact hnx m h
      · rw [List.mem_singleton] at h
        subst h
        intro hcon
        cases hcon
    · rw [cutMsgs_append _ _ _ hnx, hcm]
      rw [show ((cs, c2.shaFed) : List (List Nat) × List Nat).2 = c2.shaFed from rfl]
      rw [cutMsgs_cons_edges (by simp)]
      simp [cutEdges, cutMsgs]
    · simp only [List.flatMap_append, List.flatMap_cons, msgEdges, List.flatMap_nil,
        List.append_nil, List.map_append, hfm]
      simp
    · rw [hix]
      simp
    · simp only [List.flatten_append, List.flatten_cons, List.flatten_nil, List.append_nil]
      rw [hfl]
      simp [Chunker.new]
    · intro _
      refine ⟨hp3', by simp⟩
    · obtain ⟨E, hE⟩ := hext
      exact ⟨E ++ E1, by rw [hrepo3, hE, List.append_assoc]⟩
    · intro h
      exact hinv3 (hinv h)
    · intro ch hchm
      rcases List.mem_append.mp hchm with h | h
      · rw [hrepo3]
        exact repoGet_isSome_append (hcov ch h) E1
      · rw [List.mem_singleton] at h
        subst h
        simpa using hcov3 c2.shaFed (List.mem_singleton.mpr rfl)
    · intro hall
      obtain ⟨hr2, hc2⟩ := hsame fun ch h => hall ch (List.mem_append_left _ h)
      obtain ⟨hr3, hc3⟩ := hsame3 (by
        intro ch h
        rw [List.mem_singleton] at h
        subst h
        rw [hr2]
        exact hall c2.shaFed (List.mem_append_right _ (List.mem_singleton.mpr rfl)))
      exact ⟨by rw [hr3, hr2], by rw [hc3, hc2]⟩

/-! ### Restore-side lemmas -/

theorem read_file_of_repoInv
    (copen : List Nat → List Nat → List Nat → List Nat → Option (List Nat))
    (bseal : List Nat → List Nat → List Nat → List Nat → List Nat)
    (keys : Nat → List Nat × List Nat) (pk sk : List Nat) (sha : List Nat → List Nat)
    (hcrypto : ∀ m n i, copen (bseal m n pk (keys i).2) n (keys i).1 sk = some m)
    (hkeylen : ∀ i, ((keys i).1).length = 32)
    (hsha32 : ∀ x, (sha x).length = 32)
    (hinj : ∀ x y, sha x = sha y → x = y)
    {F : Repo} (hF : RepoInv sha bseal keys pk F)
    {k : ChunkType} {ch : List Nat} {f : List Nat}
    (hget : repoGet F (k, sha ch) = some f) :
    read_file_to_writer copen sk F (k, sha ch) (sha ch) = .ok ch := by
  obtain ⟨q, i, hq, hf⟩ := hF _ (repoGet_mem hget)
  simp only at hq hf
  obtain rfl : q = ch := hinj _ _ hq.symm
  subst hf
  simp only [read_file_to_writer, hget]
  rw [if_pos (by rw [List.length_append, hkeylen i]; omega)]
  rw [List.take_left' (hkeylen i), List.drop_left' (hkeylen i)]
  rw [if_pos (by rw [hsha32]; omega)]
  simp only [hcrypto]

theorem chunk_type_of_index {repo : Repo} {digest : List Nat} (h2 : 2 ≤ digest.length)
    (hI : (repoGet repo (ChunkType.Index, digest)).isSome) :
    chunk_type repo digest = .ok (some ChunkType.Index) := by
  simp [chunk_type, digest_to_path_of_len h2, hI]

theorem chunk_type_of_data {repo : Repo} {digest : List Nat} (h2 : 2 ≤ digest.length)
    (hI : ¬(repoGet repo (ChunkType.Index, digest)).isSome)
    (hD : (repoGet repo (ChunkType.Data, digest)).isSome) :
    chunk_type repo digest = .ok (some ChunkType.Data) := by
  simp [chunk_type, digest_to_path_of_len h2, hI, hD]

theorem chunk_type_of_none {repo : Repo} {digest : List Nat} (h2 : 2 ≤ digest.length)
    (hI : ¬(repoGet repo (ChunkType.Index, digest)).isSome)
    (hD : ¬(repoGet repo (ChunkType.Data, digest)).isSome) :
    chunk_type repo digest = .ok none := by
  simp [chunk_type, digest_to_path_of_len h2, hI, hD]

theorem rdr_of_data
    {copen : List Nat → List Nat → List Nat → List Nat → Option (List Nat)}
    {sk : List Nat} {F : Repo} {digest : List Nat} (fuel : Nat)
    (h2 : 2 ≤ digest.length)
    (hct : chunk_type F digest = .ok (some ChunkType.Data)) :
    restore_data_recursive copen sk F (fuel + 1) digest =
      read_file_to_writer copen sk F (ChunkType.Data, digest) digest := by
  rw [restore_data_recursive]
  rw [hct]
  simp only [digest_to_path_of_len h2]
  rfl

theorem rdr_of_index
    {copen : List Nat → List Nat → List Nat → List Nat → Option (List Nat)}
    {sk : List Nat} {F : Repo} {digest plain : List Nat} (fuel : Nat)
    (h2 : 2 ≤ digest.length)
    (hct : chunk_type F digest = .ok (some ChunkType.Index))
    (hread : read_file_to_writer copen sk F (ChunkType.Index, digest) digest = .ok plain) :
    restore_data_recursive copen sk F (fuel + 1) digest =
      (if plain.length % 32 = 0 then restore_list copen sk F fuel (chunks32 plain)
       else .error .assertFail) := by
  rw [restore_data_recursive]
  rw [hct]
  simp only [digest_to_path_of_len h2, hread]
  rfl

theorem rdr_of_notfound
    {copen : List Nat → List Nat → List Nat → List Nat → Option (List Nat)}
    {sk : List Nat} {F : Repo} {digest : List Nat} (fuel : Nat)
    (hct : chunk_type F digest = .ok none) :
    restore_data_recursive copen sk F (fuel + 1) digest = .error .notFound := by
  rw [restore_data_recursive]
  rw [hct]
  rfl

theorem restore_list_nil
    {copen : List Nat → List Nat → List Nat → List Nat → Option (List Nat)}
    {sk : List Nat} {F : Repo} {fuel : Nat} :
    restore_list copen sk F fuel [] = .ok [] := by
  rw [restore_list]

theorem restore_list_cons
    {copen : List Nat → List Nat → List Nat → List Nat → Option (List Nat)}
    {sk : List Nat} {F : Repo} {fuel : Nat} {d : List Nat} {ds : List (List Nat)}
    {o1 o2 : List Nat}
    (h1 : restore_data_recursive copen sk F fuel d = .ok o1)
    (h2 : restore_list copen sk F fuel ds = .ok o2) :
    restore_list copen sk F fuel (d :: ds) = .ok (o1 ++ o2) := by
  rw [restore_list, h1]
  show (do
    let out2 ← restore_list copen sk F fuel ds
    Except.ok (o1 ++ out2)) = Except.ok (o1 ++ o2)
  rw [h2]
  rfl

theorem restore_list_cons_inv
    {copen : List Nat → List Nat → List Nat → List Nat → Option (List Nat)}
    {sk : List Nat} {F : Repo} {fuel : Nat} {d : List Nat} {ds : List (List Nat)}
    {out : List Nat}
    (h : restore_list copen sk F fuel (d :: ds) = .ok out) :
    ∃ o1 o2, restore_data_recursive copen sk F fuel d = .ok o1 ∧
      restore_list copen sk F fuel ds = .ok o2 ∧ out = o1 ++ o2 := by
  rw [restore_list] at h
  cases h1 : restore_data_recursive copen sk F fuel d with
  | error e =>
    rw [h1] at h
    exact absurd h (by intro hcon; cases hcon)
  | ok o1 =>
    rw [h1] at h
    cases h2 : restore_list copen sk F fuel ds with
    | error e =>
      rw [h2] at h
      exact absurd h (by intro hcon; cases hcon)
    | ok o2 =>
      rw [h2] at h
      refine ⟨o1, o2, rfl, rfl, ?_⟩
      cases h
      rfl

theorem restore_list_append_inv
    {copen : List Nat → List Nat → List Nat → List Nat → Option (List Nat)}
    {sk : List Nat} {F : Repo} {fuel : Nat} :
    ∀ {l1 l2 : List (List Nat)} {out : List Nat},
    restore_list copen sk F fuel (l1 ++ l2) = .ok out →
    ∃ o1 o2, restore_list copen sk F fuel l1 = .ok o1 ∧
      restore_list copen sk F fuel l2 = .ok o2 ∧ out = o1 ++ o2 := by
  intro l1
  induction l1 with
  | nil =>
    intro l2 out h
    exact ⟨[], out, restore_list_nil, by simpa using h, by simp⟩
  | cons d ds ih =>
    intro l2 out h
    rw [List.cons_append] at h
    obtain ⟨o1, o2, h1, h2, hout⟩ := restore_list_cons_inv h
    obtain ⟨o3, o4, h3, h4, ho2⟩ := ih h2
    exact ⟨o1 ++ o3, o4, restore_list_cons h1 h3, h4, by rw [hout, ho2, List.append_assoc]⟩

/-- Restoring a list of digests of chunks that each restore to themselves. -/
theorem restore_list_pointwise
    {copen : List Nat → List Nat → List Nat → List Nat → Option (List Nat)}
    {sk : List Nat} {F : Repo} {fuel : Nat} {sha : List Nat → List Nat} :
    ∀ {cs : List (List Nat)},
    (∀ ch ∈ cs, restore_data_recursive copen sk F fuel (sha ch) = .ok ch) →
    restore_list copen sk F fuel (cs.map sha) = .ok cs.flatten := by
  intro cs
  induction cs with
  | nil => intro _; exact restore_list_nil
  | cons c cs ih =>
    intro h
    rw [List.map_cons, List.flatten_cons]
    exact restore_list_cons (h c (List.mem_cons_self _ _))
      (ih fun ch hm => h ch (List.mem_cons_of_mem _ hm))

theorem chunks32_nil : chunks32 [] = [] := by
  rw [chunks32]
  simp

theorem chunks32_cons {l : List Nat} (h : l ≠ []) :
    chunks32 l = l.take 32 :: chunks32 (l.drop 32) := by
  rw [chunks32, if_neg h]

theorem chunks32_append (a : List Nat) (ha : a.length % 32 = 0) (b : List Nat) :
    chunks32 (a ++ b) = chunks32 a ++ chunks32 b := by
  by_cases haz : a = []
  · subst haz
    simp [chunks32_nil]
  · have hlen : 32 ≤ a.length := by
      have : 0 < a.length := List.length_pos.mpr haz
      omega
    by_cases hbz : b = []
    · subst hbz
      simp [chunks32_nil]
    · have habz : a ++ b ≠ [] := by
        intro hcon
        exact haz (List.append_eq_nil.mp hcon).1
      rw [chunks32_cons habz, chunks32_cons haz]
      rw [List.take_append_eq_append_take, show (32 - a.length) = 0 by omega]
      rw [List.drop_append_eq_append_drop, show (32 - a.length) = 0 by omega]
      simp only [List.take_zero, List.append_nil, List.drop_zero]
      rw [chunks32_append (a.drop 32) (by simp only [List.length_drop]; omega) b]
      simp
termination_by a.length
decreasing_by
  simp only [List.length_drop]
  omega

theorem chunks32_of_len32 {a : List Nat} (h : a.length = 32) : chunks32 a = [a] := by
  rw [chunks32, if_neg (by intro hcon; subst hcon; simp at h)]
  rw [List.take_of_length_le (by omega), List.drop_eq_nil_of_le (by omega), chunks32_nil]

theorem chunks32_sha_flatten {sha : List Nat → List Nat} (hsha32 : ∀ x, (sha x).length = 32) :
    ∀ (cs : List (List Nat)), chunks32 ((cs.map sha).flatten) = cs.map sha := by
  intro cs
  induction cs with
  | nil => exact chunks32_nil
  | cons c cs ih =>
    rw [List.map_cons, List.flatten_cons,
      chunks32_append (sha c) (by rw [hsha32]) ((List.map sha cs).flatten),
      chunks32_of_len32 (hsha32 c), ih]
    rfl

theorem chunks32_flatten_of : ∀ {cs : List (List Nat)},
    (∀ ch ∈ cs, ch.length % 32 = 0) →
    chunks32 cs.flatten = cs.flatMap chunks32 := by
  intro cs
  induction cs with
  | nil => intro _; simp [chunks32_nil]
  | cons c cs ih =>
    intro h
    rw [List.flatten_cons, chunks32_append c (h c (List.mem_cons_self _ _)) _,
      List.flatMap_cons, ih fun ch hm => h ch (List.mem_cons_of_mem _ hm)]

theorem flatten_map_sha_length {sha : List Nat → List Nat} (hsha32 : ∀ x, (sha x).length = 32) :
    ∀ (cs : List (List Nat)), ((cs.map sha).flatten).length = 32 * cs.length := by
  intro cs
  induction cs with
  | nil => rfl
  | cons c cs ih =>
    rw [List.map_cons, List.flatten_cons, List.length_append, hsha32, ih,
      List.length_cons]
    ring

/-- Restoring a stored data chunk: classification probes `index/` first and
misses (no aliasing), hits `chunks/`, and decryption returns the chunk. -/
theorem rdr_data_chunk
    (copen : List Nat → List Nat → List Nat → List Nat → Option (List Nat))
    (bseal : List Nat → List Nat → List Nat → List Nat → List Nat)
    (keys : Nat → List Nat × List Nat) (pk sk : List Nat) (sha : List Nat → List Nat)
    (hcrypto : ∀ m n i, copen (bseal m n pk (keys i).2) n (keys i).1 sk = some m)
    (hkeylen : ∀ i, ((keys i).1).length = 32)
    (hsha32 : ∀ x, (sha x).length = 32)
    (hinj : ∀ x y, sha x = sha y → x = y)
    {F : Repo} (hF : RepoInv sha bseal keys pk F) (hna : noAlias F)
    {ch : List Nat} (hget : (repoGet F (ChunkType.Data, sha ch)).isSome) (rf : Nat) :
    restore_data_recursive copen sk F (rf + 1) (sha ch) = .ok ch := by
  have h2 : 2 ≤ (sha ch).length := by rw [hsha32]; omega
  have hnotI : ¬(repoGet F (ChunkType.Index, sha ch)).isSome := fun hI => hna _ hI hget
  rw [rdr_of_data rf h2 (chunk_type_of_data h2 hnotI hget)]
  obtain ⟨f, hf⟩ := Option.isSome_iff_exists.mp hget
  exact read_file_of_repoInv copen bseal keys pk sk sha hcrypto hkeylen hsha32 hinj hF hf

/-- Restoring a stored index chunk: classification hits `index/`, the
32-divisibility bookkeeping passes, and the walk recurses over the 32-byte
slices of the chunk's plaintext. -/
theorem rdr_index_chunk
    (copen : List Nat → List Nat → List Nat → List Nat → Option (List Nat))
    (bseal : List Nat → List Nat → List Nat → List Nat → List Nat)
    (keys : Nat → List Nat × List Nat) (pk sk : List Nat) (sha : List Nat → List Nat)
    (hcrypto : ∀ m n i, copen (bseal m n pk (keys i).2) n (keys i).1 sk = some m)
    (hkeylen : ∀ i, ((keys i).1).length = 32)
    (hsha32 : ∀ x, (sha x).length = 32)
    (hinj : ∀ x y, sha x = sha y → x = y)
    {F : Repo} (hF : RepoInv sha bseal keys pk F)
    {ch : List Nat} (hget : (repoGet F (ChunkType.Index, sha ch)).isSome)
    (hmod : ch.length % 32 = 0) (rf : Nat) {out : List Nat}
    (hrl : restore_list copen sk F rf (chunks32 ch) = .ok out) :
    restore_data_recursive copen sk F (rf + 1) (sha ch) = .ok out := by
  have h2 : 2 ≤ (sha ch).length := by rw [hsha32]; omega
  obtain ⟨f, hf⟩ := Option.isSome_iff_exists.mp hget
  rw [rdr_of_index rf h2 (chunk_type_of_index h2 hget)
    (read_file_of_repoInv copen bseal keys pk sk sha hcrypto hkeylen hsha32 hinj hF hf)]
  rw [if_pos hmod, hrl]

/-- Lifting a restore of the flattened child lists one level up through
their parent index chunks. -/
theorem restore_list_flat
    {copen : List Nat → List Nat → List Nat → List Nat → Option (List Nat)}
    {sk : List Nat} {F : Repo} {sha : List Nat → List Nat} {rf : Nat} :
    ∀ (cs : List (List Nat)) (out : List Nat),
    restore_list copen sk F rf (cs.flatMap chunks32) = .ok out →
    (∀ ch ∈ cs, ∀ o, restore_list copen sk F rf (chunks32 ch) = .ok o →
      restore_data_recursive copen sk F (rf + 1) (sha ch) = .ok o) →
    restore_list copen sk F (rf + 1) (cs.map sha) = .ok out := by
  intro cs
  induction cs with
  | nil =>
    intro out h _
    rw [List.flatMap_nil, restore_list_nil] at h
    cases h
    exact restore_list_nil
  | cons c cs ihc =>
    intro out h hall
    rw [List.flatMap_cons] at h
    obtain ⟨o1, o2, h1, h2, rfl⟩ := restore_list_append_inv h
    have hc := hall c (List.mem_cons_self _ _) o1 h1
    have hrest := ihc o2 h2 fun ch hm o ho => hall ch (List.mem_cons_of_mem _ hm) o ho
    rw [List.map_cons]
    exact restore_list_cons hc hrest

/-- Main store/restore correspondence, by induction on the recursion depth
of `store_data`: the writer stores every chunk of every pass, and in any
repository extending the resulting one (with the invariant, no
index/chunks aliasing, and 32-aligned index-pass cuts), the returned root
digest restores to the stored stream. -/
theorem store_restore_aux
    (fce : List Nat → List Nat → Option Nat) (sha : List Nat → List Nat)
    (bseal : List Nat → List Nat → List Nat → List Nat → List Nat)
    (copen : List Nat → List Nat → List Nat → List Nat → Option (List Nat))
    (keys : Nat → List Nat × List Nat) (pk sk : List Nat)
    (hfce : ∀ fed rest n, fce fed rest = some n → 1 ≤ n ∧ n ≤ rest.length)
    (hsha32 : ∀ x, (sha x).length = 32)
    (hinj : ∀ x y, sha x = sha y → x = y)
    (hcrypto : ∀ m n i, copen (bseal m n pk (keys i).2) n (keys i).1 sk = some m)
    (hkeylen : ∀ i, ((keys i).1).length = 32) :
    ∀ (fuel : Nat) (input : List Nat) (kind : ChunkType)
      (msgs : List ChunkWriterMessage) (root : List Nat),
      input ≠ [] →
      store_data fce sha fuel input kind = some (msgs, root) →
      storeAligned fce sha fuel input kind = true →
      ∀ st : WState, st.pending_data = [] → RepoInv sha bseal keys pk st.repo →
      ∃ st2,
        (∀ ms2, chunk_writer bseal keys pk st (msgs ++ ms2) =
          chunk_writer bseal keys pk st2 ms2) ∧
        st2.pending_data = [] ∧
        (∃ E, st2.repo = st.repo ++ E) ∧
        RepoInv sha bseal keys pk st2.repo ∧
        (∀ F, (∃ E2, F = st2.repo ++ E2) → RepoInv sha bseal keys pk F → noAlias F →
          (kind = ChunkType.Data →
            ∃ rfuel, restore_data_recursive copen sk F rfuel root = .ok input) ∧
          (kind = ChunkType.Index → input.length % 32 = 0 →
            ∀ out rf, restore_list copen sk F rf (chunks32 input) = .ok out →
              ∃ rfuel, restore_data_recursive copen sk F rfuel root = .ok out)) := by
  intro fuel
  induction fuel with
  | zero =>
    intro input kind msgs root _ hstore
    rw [show store_data fce sha 0 input kind = none from rfl] at hstore
    cases hstore
  | succ fuel ih =>
    intro input kind msgs root hne hstore halign st hstp hstri
    rcases hsp : storePass fce sha kind input with ⟨msgs1, index⟩
    simp only [store_data, hsp] at hstore
    simp only [storeAligned, hsp] at halign
    obtain ⟨csf, stA, hwA, hnxA, hcmA, hfmA, hixA, hflA, hnzA, hextA, hinvA, hcovA, hsameA⟩ :=
      storePassBufs_spec fce sha bseal keys pk hfce hsha32 kind (readBufs input) st hstp
    have hsp' : storePassBufs fce sha kind (readBufs input) = (msgs1, index) := hsp
    simp only [hsp'] at hwA hnxA hcmA hfmA hixA
    rw [readBufs_flatten] at hflA hnzA
    obtain ⟨hstAp, hcsfne⟩ := hnzA hne
    have hinvAr : RepoInv sha bseal keys pk stA.repo := hinvA hstri
    have hidxlen : index.length = 32 * csf.length := by
      rw [hixA]
      exact flatten_map_sha_length hsha32 csf
    have hmodIdx : index.length % 32 = 0 := by
      rw [hidxlen]
      omega
    by_cases hbig : 32 < index.length
    · -- the accumulator exceeds one digest: recurse on it as an Index stream
      rw [if_pos hbig] at hstore halign
      rcases hrec : store_data fce sha fuel index ChunkType.Index with _ | ⟨msgs2, root2⟩
      · rw [hrec] at hstore
        cases hstore
      · rw [hrec] at hstore
        obtain ⟨h1, h2⟩ : msgs1 ++ msgs2 = msgs ∧ root2 = root := by
          simpa using hstore
        subst h1
        subst h2
        obtain ⟨hal1, hal2⟩ := (Bool.and_eq_true _ _) ▸ halign
        have halK : kind = ChunkType.Index → ∀ ch ∈ csf, ch.length % 32 = 0 := by
          intro hk
          subst hk
          simp only [hcmA] at hal1
          intro ch hm
          simpa using List.all_eq_true.mp hal1 ch hm
        have hidxne : index ≠ [] := by
          intro h
          rw [h] at hbig
          simp at hbig
        obtain ⟨stB, hwB, hstBp, hextB, hinvB, hsem⟩ :=
          ih index ChunkType.Index msgs2 root2 hidxne hrec hal2 stA hstAp hinvAr
        have hliftF : ∀ F, (∃ E2, F = stB.repo ++ E2) →
            ∀ q, (repoGet stA.repo q).isSome → (repoGet F q).isSome := by
          intro F hF q hq
          obtain ⟨E2, rfl⟩ := hF
          obtain ⟨E1, hE1⟩ := hextB
          rw [hE1]
          exact repoGet_isSome_append (repoGet_isSome_append hq E1) E2
        refine ⟨stB, ?_, hstBp, ?_, hinvB, ?_⟩
        · intro ms2
          rw [List.append_assoc, hwA, hwB]
        · obtain ⟨E1, hE1⟩ := hextA
          obtain ⟨E2, hE2⟩ := hextB
          exact ⟨E1 ++ E2, by rw [hE2, hE1, List.append_assoc]⟩
        · intro F hFe hFi hFn
          obtain ⟨-, hsemI⟩ := hsem F hFe hFi hFn
          constructor
          · intro hkD
            subst hkD
            have hlist : restore_list copen sk F 1 (csf.map sha) = .ok csf.flatten :=
              restore_list_pointwise fun ch hm =>
                rdr_data_chunk copen bseal keys pk sk sha hcrypto hkeylen hsha32 hinj
                  hFi hFn (hliftF F hFe _ (hcovA ch hm)) 0
            obtain ⟨rfuel, hr⟩ := hsemI rfl hmodIdx csf.flatten 1
              (by rw [hixA, chunks32_sha_flatten hsha32]; exact hlist)
            exact ⟨rfuel, by rw [← hflA]; exact hr⟩
          · intro hkI hinmod out rf hrl
            have hall32 := halK hkI
            subst hkI
            rw [← hflA, chunks32_flatten_of hall32] at hrl
            have hflat := restore_list_flat csf out hrl fun ch hm o ho =>
              rdr_index_chunk copen bseal keys pk sk sha hcrypto hkeylen hsha32 hinj
                hFi (hliftF F hFe _ (hcovA ch hm)) (hall32 ch hm) rf ho
            exact hsemI rfl hmodIdx out (rf + 1)
              (by rw [hixA, chunks32_sha_flatten hsha32]; exact hflat)
    · -- the accumulator fits in one digest: it is the root
      rw [if_neg hbig] at hstore
      obtain ⟨h1, h2⟩ : msgs1 = msgs ∧ index = root := by
        simpa using hstore
      subst h1
      subst h2
      have hone : csf.length = 1 := by
        have hpos : 0 < csf.length := List.length_pos.mpr hcsfne
        omega
      obtain ⟨ch0, rfl⟩ := List.length_eq_one.mp hone
      have hch0 : ch0 = input := by
        simpa using hflA
      subst hch0
      have hroot : index = sha ch0 := by
        rw [hixA]
        simp
      have hliftF : ∀ F, (∃ E2, F = stA.repo ++ E2) →
          ∀ q, (repoGet stA.repo q).isSome → (repoGet F q).isSome := by
        intro F hF q hq
        obtain ⟨E2, rfl⟩ := hF
        exact repoGet_isSome_append hq E2
      refine ⟨stA, hwA, hstAp, hextA, hinvAr, ?_⟩
      intro F hFe hFi hFn
      constructor
      · intro hkD
        subst hkD
        refine ⟨1, ?_⟩
        rw [hroot]
        exact rdr_data_chunk copen bseal keys pk sk sha hcrypto hkeylen hsha32 hinj
          hFi hFn (hliftF F hFe _ (hcovA ch0 (List.mem_singleton.mpr rfl))) 0
      · intro hkI hinmod out rf hrl
        subst hkI
        refine ⟨rf + 1, ?_⟩
        rw [hroot]
        exact rdr_index_chunk copen bseal keys pk sk sha hcrypto hkeylen hsha32 hinj
          hFi (hliftF F hFe _ (hcovA ch0 (List.mem_singleton.mpr rfl))) hinmod rf hrl

theorem readBufs_nil : readBufs [] = [] := by
  rw [readBufs]
  simp

/-- A zero-byte stream: the single terminal `Data` message carries no edge,
so the writer pushes the empty buffer onto its pending list, and the `Exit`
assertion `assert!(pending_data.is_empty())` fails. -/
theorem save_nil (fce : List Nat → List Nat → Option Nat) (sha : List Nat → List Nat)
    (bseal : List Nat → List Nat → List Nat → List Nat → List Nat)
    (keys : Nat → List Nat × List Nat) (pk : List Nat) (fuel : Nat)
    (repo0 : Repo) (ctr0 : Nat) :
    save fce sha bseal keys pk (fuel + 1) repo0 ctr0 [] = .error (.w .exitAssert) := by
  have hsp : storePass fce sha ChunkType.Data [] =
      ([ChunkWriterMessage.Data [] [] ChunkType.Data], []) := by
    simp [storePass, storePassBufs, readBufs_nil, Chunker.finish, Chunker.new]
  have hsd : store_data fce sha (fuel + 1) [] ChunkType.Data =
      some ([ChunkWriterMessage.Data [] [] ChunkType.Data], []) := by
    simp only [store_data, hsp]
    rw [if_neg (by simp)]
  have hwr : chunk_writer bseal keys pk ⟨[], repo0, ctr0⟩
      ([ChunkWriterMessage.Data [] [] ChunkType.Data] ++ [ChunkWriterMessage.Exit]) =
      .error .exitAssert := by
    rw [List.singleton_append, chunk_writer_cons_noedge]
    simp [chunk_writer]
  unfold save
  rw [hsd]
  show (match chunk_writer bseal keys pk ⟨[], repo0, ctr0⟩
      ([ChunkWriterMessage.Data [] [] ChunkType.Data] ++ [ChunkWriterMessage.Exit]) with
    | Except.error e => Except.error (SErr.w e)
    | Except.ok st => Except.ok (st, ([] : List Nat))) = Except.error (SErr.w WErr.exitAssert)
  rw [hwr]

theorem save_ok_ne_nil {fce : List Nat → List Nat → Option Nat} {sha : List Nat → List Nat}
    {bseal : List Nat → List Nat → List Nat → List Nat → List Nat}
    {keys : Nat → List Nat × List Nat} {pk : List Nat} {fuel : Nat}
    {repo0 : Repo} {ctr0 : Nat} {input : List Nat} {stf : WState} {root : List Nat}
    (hsave : save fce sha bseal keys pk fuel repo0 ctr0 input = .ok (stf, root)) :
    input ≠ [] := by
  intro hcon
  subst hcon
  cases fuel with
  | zero =>
    rw [show save fce sha bseal keys pk 0 repo0 ctr0 [] = .error .fuelOut from rfl] at hsave
    cases hsave
  | succ fuel =>
    rw [save_nil] at hsave
    cases hsave

/-- `save` composed with the `store_restore_aux` writer run: the writer
produced by `save` is the one the induction describes. -/
theorem save_spec
    (fce : List Nat → List Nat → Option Nat) (sha : List Nat → List Nat)
    (bseal : List Nat → List Nat → List Nat → List Nat → List Nat)
    (copen : List Nat → List Nat → List Nat → List Nat → Option (List Nat))
    (keys : Nat → List Nat × List Nat) (pk sk : List Nat)
    (hfce : ∀ fed rest n, fce fed rest = some n → 1 ≤ n ∧ n ≤ rest.length)
    (hsha32 : ∀ x, (sha x).length = 32)
    (hinj : ∀ x y, sha x = sha y → x = y)
    (hcrypto : ∀ m n i, copen (bseal m n pk (keys i).2) n (keys i).1 sk = some m)
    (hkeylen : ∀ i, ((keys i).1).length = 32)
    {fuel : Nat} {repo0 : Repo} {ctr0 : Nat} {input : List Nat}
    {stf : WState} {root : List Nat}
    (hRI0 : RepoInv sha bseal keys pk repo0)
    (halign : storeAligned fce sha fuel input ChunkType.Data = true)
    (hsave : save fce sha bseal keys pk fuel repo0 ctr0 input = .ok (stf, root)) :
    (∃ E, stf.repo = repo0 ++ E) ∧
    RepoInv sha bseal keys pk stf.repo ∧
    stf.pending_data = [] ∧
    (noAlias stf.repo →
      ∃ rfuel, restore_data_recursive copen sk stf.repo rfuel root = .ok input) := by
  have hne : input ≠ [] := save_ok_ne_nil hsave
  rcases hsd : store_data fce sha fuel input ChunkType.Data with _ | ⟨msgs, root'⟩
  · rw [save, hsd] at hsave
    cases hsave
  · obtain ⟨st2, hw, hp2, hext, hri2, hsem⟩ :=
      store_restore_aux fce sha bseal copen keys pk sk hfce hsha32 hinj hcrypto hkeylen
        fuel input ChunkType.Data msgs root' hne hsd halign ⟨[], repo0, ctr0⟩ rfl hRI0
    have hwr : chunk_writer bseal keys pk ⟨[], repo0, ctr0⟩ (msgs ++ [.Exit]) = .ok st2 := by
      rw [hw [.Exit]]
      simp [chunk_writer, hp2]
    have hsave2 : save fce sha bseal keys pk fuel repo0 ctr0 input = .ok (st2, root') := by
      unfold save
      rw [hsd]
      show (match chunk_writer bseal keys pk ⟨[], repo0, ctr0⟩
          (msgs ++ [ChunkWriterMessage.Exit]) with
        | Except.error e => Except.error (SErr.w e)
        | Except.ok st => Except.ok (st, root')) = Except.ok (st2, root')
      rw [hwr]
    obtain ⟨h1, h2⟩ : st2 = stf ∧ root' = root := by
      simpa using hsave2.symm.trans hsave
    subst h1
    subst h2
    refine ⟨hext, hri2, hp2, ?_⟩
    intro hna
    exact (hsem st2.repo ⟨[], by simp⟩ hri2 hna).1 rfl

/-- Second-writer run over the messages of a `store_data` call whose chunks
are all already present: every edge takes the dedup write-skip branch, so
the repository and the keypair counter are left unchanged. -/
theorem store_dedup_aux
    (fce : List Nat → List Nat → Option Nat) (sha : List Nat → List Nat)
    (bseal : List Nat → List Nat → List Nat → List Nat → List Nat)
    (keys : Nat → List Nat × List Nat) (pk : List Nat)
    (hfce : ∀ fed rest n, fce fed rest = some n → 1 ≤ n ∧ n ≤ rest.length)
    (hsha32 : ∀ x, (sha x).length = 32) :
    ∀ (fuel : Nat) (input : List Nat) (kind : ChunkType)
      (msgs : List ChunkWriterMessage) (root : List Nat),
      input ≠ [] →
      store_data fce sha fuel input kind = some (msgs, root) →
      ∀ st : WState, st.pending_data = [] →
      ∃ st2,
        (∀ ms2, chunk_writer bseal keys pk st (msgs ++ ms2) =
          chunk_writer bseal keys pk st2 ms2) ∧
        st2.pending_data = [] ∧
        (∃ E, st2.repo = st.repo ++ E) ∧
        (∀ st' : WState, st'.pending_data = [] → (∃ E', st'.repo = st2.repo ++ E') →
          ∃ st3,
            (∀ ms2, chunk_writer bseal keys pk st' (msgs ++ ms2) =
              chunk_writer bseal keys pk st3 ms2) ∧
            st3.pending_data = [] ∧ st3.repo = st'.repo ∧ st3.ctr = st'.ctr) := by
  intro fuel
  induction fuel with
  | zero =>
    intro input kind msgs root _ hstore
    rw [show store_data fce sha 0 input kind = none from rfl] at hstore
    cases hstore
  | succ fuel ih =>
    intro input kind msgs root hne hstore st hstp
    rcases hsp : storePass fce sha kind input with ⟨msgs1, index⟩
    simp only [store_data, hsp] at hstore
    obtain ⟨csf, stA, hwA, hnxA, hcmA, hfmA, hixA, hflA, hnzA, hextA, hinvA, hcovA, hsameA⟩ :=
      storePassBufs_spec fce sha bseal keys pk hfce hsha32 kind (readBufs input) st hstp
    have hsp' : storePassBufs fce sha kind (readBufs input) = (msgs1, index) := hsp
    simp only [hsp'] at hwA hnxA hcmA hfmA hixA
    rw [readBufs_flatten] at hflA hnzA
    obtain ⟨hstAp, hcsfne⟩ := hnzA hne
    -- second-run helper for this pass, from any repo extending stA.repo
    have hpass' : ∀ st' : WState, st'.pending_data = [] →
        (∃ E', st'.repo = stA.repo ++ E') →
        ∃ stA' : WState,
          (∀ ms2, chunk_writer bseal keys pk st' (msgs1 ++ ms2) =
            chunk_writer bseal keys pk stA' ms2) ∧
          stA'.pending_data = [] ∧ stA'.repo = st'.repo ∧ stA'.ctr = st'.ctr := by
      intro st' hst'p hE'x
      obtain ⟨E', hE'⟩ := hE'x
      obtain ⟨csf2, stA', hwA2, _, hcmA2, _, _, hflA2, hnzA2, _, _, hcovA2, hsameA2⟩ :=
        storePassBufs_spec fce sha bseal keys pk hfce hsha32 kind (readBufs input) st' hst'p
      simp only [hsp'] at hwA2 hcmA2
      rw [readBufs_flatten] at hflA2 hnzA2
      have hcsf2 : csf2 = csf := by
        have h := hcmA2.symm.trans hcmA
        simpa using h
      subst hcsf2
      obtain ⟨hstA'p, _⟩ := hnzA2 hne
      obtain ⟨hr, hc⟩ := hsameA2 (by
        intro ch hm
        rw [hE']
        exact repoGet_isSome_append (hcovA ch hm) E')
      exact ⟨stA', hwA2, hstA'p, hr, hc⟩
    by_cases hbig : 32 < index.length
    · rw [if_pos hbig] at hstore
      rcases hrec : store_data fce sha fuel index ChunkType.Index with _ | ⟨msgs2, root2⟩
      · rw [hrec] at hstore
        cases hstore
      · rw [hrec] at hstore
        obtain ⟨h1, h2⟩ : msgs1 ++ msgs2 = msgs ∧ root2 = root := by
          simpa using hstore
        subst h1
        subst h2
        have hidxne : index ≠ [] := by
          intro h
          rw [h] at hbig
          simp at hbig
        obtain ⟨stB, hwB, hstBp, hextB, hded⟩ :=
          ih index ChunkType.Index msgs2 root2 hidxne hrec stA hstAp
        refine ⟨stB, ?_, hstBp, ?_, ?_⟩
        · intro ms2
          rw [List.append_assoc, hwA, hwB]
        · obtain ⟨E1, hE1⟩ := hextA
          obtain ⟨E2, hE2⟩ := hextB
          exact ⟨E1 ++ E2, by rw [hE2, hE1, List.append_assoc]⟩
        · intro st' hst'p hst'e
          obtain ⟨E2, hE2⟩ := hextB
          obtain ⟨E', hE'⟩ := hst'e
          obtain ⟨stA', hwA2, hstA'p, hrA', hcA'⟩ := hpass' st' hst'p
            ⟨E2 ++ E', by rw [hE', hE2, List.append_assoc]⟩
          obtain ⟨st3, hw3, hp3, hr3, hc3⟩ := hded stA' hstA'p
            ⟨E', by rw [hrA', hE']⟩
          refine ⟨st3, ?_, hp3, by rw [hr3, hrA'], by rw [hc3, hcA']⟩
          intro ms2
          rw [List.append_assoc, hwA2, hw3]
    · rw [if_neg hbig] at hstore
      obtain ⟨h1, h2⟩ : msgs1 = msgs ∧ index = root := by
        simpa using hstore
      subst h1
      subst h2
      refine ⟨stA, hwA, hstAp, hextA, ?_⟩
      intro st' hst'p hst'e
      exact hpass' st' hst'p hst'e

/-- Saving the same stream a second time into the repository produced by
the first save returns the same root digest and leaves the repository
exactly as it was: every chunk's path already exists, so the writer takes
the dedup write-skip branch throughout. -/
theorem save_dedup
    (fce : List Nat → List Nat → Option Nat) (sha : List Nat → List Nat)
    (bseal : List Nat → List Nat → List Nat → List Nat → List Nat)
    (keys : Nat → List Nat × List Nat) (pk : List Nat)
    (hfce : ∀ fed rest n, fce fed rest = some n → 1 ≤ n ∧ n ≤ rest.length)
    (hsha32 : ∀ x, (sha x).length = 32)
    {fuel : Nat} {repo0 : Repo} {ctr0 : Nat} {input : List Nat}
    {st1 : WState} {root : List Nat}
    (hsave : save fce sha bseal keys pk fuel repo0 ctr0 input = .ok (st1, root))
    (ctr0' : Nat) :
    ∃ st1', save fce sha bseal keys pk fuel st1.repo ctr0' input = .ok (st1', root) ∧
      st1'.repo = st1.repo ∧ st1'.ctr = ctr0' := by
  have hne : input ≠ [] := save_ok_ne_nil hsave
  rcases hsd : store_data fce sha fuel input ChunkType.Data with _ | ⟨msgs, root'⟩
  · rw [save, hsd] at hsave
    cases hsave
  · obtain ⟨st2, hw, hp2, _, hded⟩ :=
      store_dedup_aux fce sha bseal keys pk hfce hsha32
        fuel input ChunkType.Data msgs root' hne hsd ⟨[], repo0, ctr0⟩ rfl
    have hwr : chunk_writer bseal keys pk ⟨[], repo0, ctr0⟩ (msgs ++ [.Exit]) = .ok st2 := by
      rw [hw [.Exit]]
      simp [chunk_writer, hp2]
    have hsave2 : save fce sha bseal keys pk fuel repo0 ctr0 input = .ok (st2, root') := by
      unfold save
      rw [hsd]
      show (match chunk_writer bseal keys pk ⟨[], repo0, ctr0⟩
          (msgs ++ [ChunkWriterMessage.Exit]) with
        | Except.error e => Except.error (SErr.w e)
        | Except.ok st => Except.ok (st, root')) = Except.ok (st2, root')
      rw [hwr]
    obtain ⟨h1, h2⟩ : st2 = st1 ∧ root' = root := by
      simpa using hsave2.symm.trans hsave
    subst h1
    subst h2
    obtain ⟨st3, hw3, hp3, hr3, hc3⟩ := hded ⟨[], st2.repo, ctr0'⟩ rfl ⟨[], by simp⟩
    have hwr3 : chunk_writer bseal keys pk ⟨[], st2.repo, ctr0'⟩ (msgs ++ [.Exit]) = .ok st3 := by
      rw [hw3 [.Exit]]
      simp [chunk_writer, hp3]
    refine ⟨st3, ?_, by simpa using hr3, by simpa using hc3⟩
    unfold save
    rw [hsd]
    show (match chunk_writer bseal keys pk ⟨[], st2.repo, ctr0'⟩
        (msgs ++ [ChunkWriterMessage.Exit]) with
      | Except.error e => Except.error (SErr.w e)
      | Except.ok st => Except.ok (st, root')) = Except.ok (st3, root')
    rw [hwr3]

/-! ### Chunker-only run lemmas (no writer involved) -/

theorem feedAll_eq_passFold (fce : List Nat → List Nat → Option Nat)
    (sha : List Nat → List Nat) (kind : ChunkType) :
    ∀ (bufs : List (List Nat)) (c : Chunker) (ms : List ChunkWriterMessage) (ix : List Nat),
    (bufs.foldl (passStep fce sha kind) (c, ms, ix)).1 =
      bufs.foldl (fun c buf => (c.input fce sha buf).2) c := by
  intro bufs
  induction bufs with
  | nil => intro c ms ix; rfl
  | cons buf bufs ih =>
    intro c ms ix
    rw [List.foldl_cons, List.foldl_cons]
    rcases hin : c.input fce sha buf with ⟨es, cA⟩
    rw [show passStep fce sha kind (c, ms, ix) buf =
      (cA, ms ++ [ChunkWriterMessage.Data buf es kind], ix ++ (es.map Prod.snd).flatten) by
        simp only [passStep, hin]]
    simp only [hin]
    exact ih cA _ _

/-- Chunker-only version of the pass fold: the emitted edges cut the
buffers into slices whose digests they carry, and the byte counters grow by
the bytes consumed (and are never reset). -/
theorem chunkerFold_spec (fce : List Nat → List Nat → Option Nat) (sha : List Nat → List Nat)
    (hfce : ∀ fed rest n, fce fed rest = some n → 1 ≤ n ∧ n ≤ rest.length) (kind : ChunkType) :
    ∀ (bufs : List (List Nat)) (c : Chunker), c.edges = [] →
      ∃ msgs index cs c2,
        (∀ ms0 ix0, bufs.foldl (passStep fce sha kind) (c, ms0, ix0) =
          (c2, ms0 ++ msgs, ix0 ++ index)) ∧
        (∀ m ∈ msgs, m ≠ ChunkWriterMessage.Exit) ∧
        cutMsgs msgs c.shaFed = (cs, c2.shaFed) ∧
        (msgs.flatMap msgEdges).map Prod.snd = cs.map sha ∧
        index = (cs.map sha).flatten ∧
        cs.flatten ++ c2.shaFed = c.shaFed ++ bufs.flatten ∧
        c2.edges = [] ∧
        c2.bytes_chunk = c.bytes_chunk + bufs.flatten.length ∧
        c2.bytes_total = c.bytes_total + bufs.flatten.length := by
  intro bufs
  induction bufs with
  | nil =>
    intro c hce
    exact ⟨[], [], [], c, by simp, by simp, by simp [cutMsgs], by simp, rfl, by simp,
      hce, by simp, by simp⟩
  | cons buf bufs ih =>
    intro c hce
    obtain ⟨es, cA, cs1, p, hin, hch, hcut, hd, hcAe, hcAsha, hflat1, hbc1, hbt1⟩ :=
      input_spec fce sha hfce buf c hce
    have hstep : ∀ ms0 ix0, passStep fce sha kind (c, ms0, ix0) buf =
        (cA, ms0 ++ [ChunkWriterMessage.Data buf es kind], ix0 ++ (es.map Prod.snd).flatten) := by
      intro ms0 ix0
      simp only [passStep, hin]
    obtain ⟨msgs', index', cs', c2, hfold, hnx, hcm, hfm, hix, hfl, hc2e, hc2bc, hc2bt⟩ :=
      ih cA hcAe
    refine ⟨ChunkWriterMessage.Data buf es kind :: msgs',
      (es.map Prod.snd).flatten ++ index', cs1 ++ cs', c2,
      ?_, ?_, ?_, ?_, ?_, ?_, hc2e, ?_, ?_⟩
    · intro ms0 ix0
      rw [List.foldl_cons, hstep, hfold]
      simp
    · intro m hm
      rcases List.mem_cons.mp hm with h | h
      · subst h; intro hcon; cases hcon
      · exact hnx m h
    · by_cases hes : es = []
      · subst hes
        have hcs1 : cs1 = [] := by
          simp only [cutEdges] at hcut
          exact (congrArg Prod.fst hcut).symm
        have hp0 : p = 0 := by
          simp only [cutEdges] at hcut
          exact (congrArg Prod.snd hcut).symm
        subst hcs1 hp0
        have hshaA : cA.shaFed = c.shaFed ++ buf := by simpa using hcAsha
        rw [cutMsgs_cons_noedge, show c.shaFed ++ buf = cA.shaFed from hshaA.symm, hcm]
        simp
      · have hshaA : cA.shaFed = buf.drop p := by
          rw [hcAsha, if_neg hes]
          rfl
        rw [cutMsgs_cons_edges hes, hcut]
        rw [show (cs1, p).2 = p from rfl, show buf.drop p = cA.shaFed from hshaA.symm, hcm]
    · simp only [List.flatMap_cons, msgEdges, List.map_append, hd, hfm]
    · rw [hix, hd]
      simp
    · have hkey : cs1.flatten ++ cA.shaFed = c.shaFed ++ buf := hflat1
      rw [List.flatten_append, List.append_assoc, hfl, ← List.append_assoc, hkey]
      simp
    · rw [hc2bc, hbc1]
      simp only [List.flatten_cons, List.length_append]
      omega
    · rw [hc2bt, hbt1]
      simp only [List.flatten_cons, List.length_append]
      omega

/-- Chunker completeness over one full pass (any buffer sequence followed
by `finish`): the emitted edges delimit slices whose digests they carry,
whose concatenation (with the empty final tail) is the whole input, and
whose digests form the index accumulator. -/
theorem chunker_pass_cut (fce : List Nat → List Nat → Option Nat) (sha : List Nat → List Nat)
    (hfce : ∀ fed rest n, fce fed rest = some n → 1 ≤ n ∧ n ≤ rest.length)
    (kind : ChunkType) (bufs : List (List Nat)) :
    ∃ cs, cutMsgs (storePassBufs fce sha kind bufs).1 [] = (cs, []) ∧
      (((storePassBufs fce sha kind bufs).1.flatMap msgEdges).map Prod.snd = cs.map sha) ∧
      cs.flatten = bufs.flatten ∧
      (storePassBufs fce sha kind bufs).2 = (cs.map sha).flatten := by
  obtain ⟨msgs, index, cs, c2, hfold, hnx, hcm, hfm, hix, hfl, hc2e, hc2bc, _⟩ :=
    chunkerFold_spec fce sha hfce kind bufs Chunker.new rfl
  have hf0 := hfold [] []
  rcases hfin : c2.finish sha with ⟨fedges, cF⟩
  have hsb : storePassBufs fce sha kind bufs =
      (msgs ++ [ChunkWriterMessage.Data [] fedges kind],
       index ++ (fedges.map Prod.snd).flatten) := by
    simp only [storePassBufs, hf0, hfin, List.nil_append]
  have hbc : c2.bytes_chunk = bufs.flatten.length := by
    rw [hc2bc]
    simp [Chunker.new]
  have hfe : fedges = if c2.bytes_chunk ≠ 0 then c2.edges ++ [(0, sha c2.shaFed)] else c2.edges := by
    have h1 : fedges = (c2.finish sha).1 := by rw [hfin]
    rw [h1]
    show (if c2.bytes_chunk ≠ 0 then c2.edge_found sha 0 else c2).edges = _
    split <;> rfl
  rw [show Chunker.new.shaFed = [] from rfl] at hcm
  rw [hsb]
  by_cases hz : bufs.flatten = []
  · have hfedges : fedges = [] := by
      rw [hfe, hbc, hz]
      simp [hc2e]
    subst hfedges
    have hfl' : cs.flatten = [] ∧ c2.shaFed = [] := by
      rw [hz] at hfl
      exact List.append_eq_nil.mp (by simpa [Chunker.new] using hfl)
    refine ⟨cs, ?_, ?_, ?_, ?_⟩
    · rw [cutMsgs_append _ _ _ hnx, hcm]
      rw [show ((cs, c2.shaFed) : List (List Nat) × List Nat).2 = c2.shaFed from rfl]
      rw [cutMsgs_cons_noedge]
      simp [cutMsgs, hfl'.2]
    · simp only [List.flatMap_append, List.flatMap_cons, msgEdges, List.flatMap_nil,
        List.append_nil, hfm]
    · rw [hfl'.1, hz]
    · simpa using hix
  · have hfedges : fedges = [(0, sha c2.shaFed)] := by
      rw [hfe, hbc, if_pos (by simpa using List.length_pos.mpr hz |>.ne'), hc2e]
      rfl
    subst hfedges
    refine ⟨cs ++ [c2.shaFed], ?_, ?_, ?_, ?_⟩
    · rw [cutMsgs_append _ _ _ hnx, hcm]
      rw [show ((cs, c2.shaFed) : List (List Nat) × List Nat).2 = c2.shaFed from rfl]
      rw [cutMsgs_cons_edges (by simp)]
      simp [cutEdges, cutMsgs]
    · simp only [List.flatMap_append, List.flatMap_cons, msgEdges, List.flatMap_nil,
        List.append_nil, List.map_append, hfm]
      simp
    · simp only [List.flatten_append, List.flatten_cons, List.flatten_nil, List.append_nil]
      rw [hfl]
      simp [Chunker.new]
    · rw [hix]
      simp

theorem finish_fst (c : Chunker) (sha : List Nat → List Nat) :
    (c.finish sha).1 =
      if c.bytes_chunk ≠ 0 then c.edges ++ [(0, sha c.shaFed)] else c.edges := by
  show (if c.bytes_chunk ≠ 0 then c.edge_found sha 0 else c).edges = _
  split <;> rfl

theorem finish_snd (c : Chunker) (sha : List Nat → List Nat) :
    (c.finish sha).2 =
      { (if c.bytes_chunk ≠ 0 then c.edge_found sha 0 else c) with edges := [] } := rfl

/-- Behaviour of `Chunker::finish` after a run: because `edge_found` only
performs `bytes_chunk += 0`, the counter holds the total number of bytes
ever consumed, so `finish` emits a synthetic edge as soon as the stream was
nonempty — even when the stream ended exactly on a declared edge — and each
further `finish` call emits yet another edge (digest of the empty tail). -/
theorem finish_run_spec (fce : List Nat → List Nat → Option Nat) (sha : List Nat → List Nat)
    (hfce : ∀ fed rest n, fce fed rest = some n → 1 ≤ n ∧ n ≤ rest.length)
    (bufs : List (List Nat)) :
    (feedAll fce sha bufs).bytes_chunk = bufs.flatten.length ∧
    ((feedAll fce sha bufs).finish sha).1 =
      (if bufs.flatten = [] then [] else [(0, sha (feedAll fce sha bufs).shaFed)]) ∧
    ((((feedAll fce sha bufs).finish sha).2).finish sha).1 =
      (if bufs.flatten = [] then [] else [(0, sha ([] : List Nat))]) := by
  obtain ⟨msgs, index, cs, c2, hfold, _, _, _, _, _, hc2e, hc2bc, _⟩ :=
    chunkerFold_spec fce sha hfce ChunkType.Data bufs Chunker.new rfl
  have hfa : feedAll fce sha bufs = c2 := by
    rw [feedAll, ← feedAll_eq_passFold fce sha ChunkType.Data bufs Chunker.new [] [],
      hfold [] []]
  rw [hfa]
  have hbc : c2.bytes_chunk = bufs.flatten.length := by
    rw [hc2bc]
    simp [Chunker.new]
  refine ⟨hbc, ?_, ?_⟩
  · rw [finish_fst]
    by_cases hz : bufs.flatten = []
    · rw [if_pos hz, if_neg (by rw [hbc, hz]; simp), hc2e]
    · rw [if_neg hz, if_pos (by rw [hbc]; simpa using List.length_pos.mpr hz |>.ne'), hc2e]
      rfl
  · by_cases hz : bufs.flatten = []
    · rw [if_pos hz]
      have h1 : (c2.finish sha).2 = { c2 with edges := [] } := by
        rw [finish_snd, if_neg (by rw [hbc, hz]; simp)]
      rw [finish_fst, h1]
      rw [if_neg (show ¬(({ c2 with edges := [] } : Chunker).bytes_chunk ≠ 0) from by
        show ¬(c2.bytes_chunk ≠ 0)
        rw [hbc, hz]
        simp)]
    · rw [if_neg hz]
      have hbne : c2.bytes_chunk ≠ 0 := by
        rw [hbc]
        simpa using List.length_pos.mpr hz |>.ne'
      have h1 : (c2.finish sha).2 = { (c2.edge_found sha 0) with edges := [] } := by
        rw [finish_snd, if_pos hbne]
      rw [finish_fst, h1]
      rw [if_pos (show ({ (c2.edge_found sha 0) with edges := [] } : Chunker).bytes_chunk ≠ 0
        from by
          show c2.bytes_chunk + 0 ≠ 0
          simpa using hbne)]
      rfl

/-- The repository invariant is preserved by a full `store_data` run
(every pass, every level), with no cryptographic assumptions. -/
theorem store_repoInv_aux
    (fce : List Nat → List Nat → Option Nat) (sha : List Nat → List Nat)
    (bseal : List Nat → List Nat → List Nat → List Nat → List Nat)
    (keys : Nat → List Nat × List Nat) (pk : List Nat)
    (hfce : ∀ fed rest n, fce fed rest = some n → 1 ≤ n ∧ n ≤ rest.length)
    (hsha32 : ∀ x, (sha x).length = 32) :
    ∀ (fuel : Nat) (input : List Nat) (kind : ChunkType)
      (msgs : List ChunkWriterMessage) (root : List Nat),
      input ≠ [] →
      store_data fce sha fuel input kind = some (msgs, root) →
      ∀ st : WState, st.pending_data = [] → RepoInv sha bseal keys pk st.repo →
      ∃ st2,
        (∀ ms2, chunk_writer bseal keys pk st (msgs ++ ms2) =
          chunk_writer bseal keys pk st2 ms2) ∧
        st2.pending_data = [] ∧
        (∃ E, st2.repo = st.repo ++ E) ∧
        RepoInv sha bseal keys pk st2.repo := by
  intro fuel
  induction fuel with
  | zero =>
    intro input kind msgs root _ hstore
    rw [show store_data fce sha 0 input kind = none from rfl] at hstore
    cases hstore
  | succ fuel ih =>
    intro input kind msgs root hne hstore st hstp hstri
    rcases hsp : storePass fce sha kind input with ⟨msgs1, index⟩
    simp only [store_data, hsp] at hstore
    obtain ⟨csf, stA, hwA, _, _, _, _, hflA, hnzA, hextA, hinvA, _, _⟩ :=
      storePassBufs_spec fce sha bseal keys pk hfce hsha32 kind (readBufs input) st hstp
    have hsp' : storePassBufs fce sha kind (readBufs input) = (msgs1, index) := hsp
    simp only [hsp'] at hwA
    rw [readBufs_flatten] at hnzA
    obtain ⟨hstAp, _⟩ := hnzA hne
    have hinvAr := hinvA hstri
    by_cases hbig : 32 < index.length
    · rw [if_pos hbig] at hstore
      rcases hrec : store_data fce sha fuel index ChunkType.Index with _ | ⟨msgs2, root2⟩
      · rw [hrec] at hstore
        cases hstore
      · rw [hrec] at hstore
        obtain ⟨h1, h2⟩ : msgs1 ++ msgs2 = msgs ∧ root2 = root := by
          simpa using hstore
        subst h1
        subst h2
        have hidxne : index ≠ [] := by
          intro h
          rw [h] at hbig
          simp at hbig
        obtain ⟨stB, hwB, hstBp, hextB, hinvB⟩ :=
          ih index ChunkType.Index msgs2 root2 hidxne hrec stA hstAp hinvAr
        refine ⟨stB, ?_, hstBp, ?_, hinvB⟩
        · intro ms2
          rw [List.append_assoc, hwA, hwB]
        · obtain ⟨E1, hE1⟩ := hextA
          obtain ⟨E2, hE2⟩ := hextB
          exact ⟨E1 ++ E2, by rw [hE2, hE1, List.append_assoc]⟩
    · rw [if_neg hbig] at hstore
      obtain ⟨h1, h2⟩ : msgs1 = msgs ∧ index = root := by
        simpa using hstore
      subst h1
      subst h2
      exact ⟨stA, hwA, hstAp, hextA, hinvAr⟩

/-- The no-crypto save-level summary: a successful `save` leaves no pending
buffer, only adds files, and every file it wrote is a well-formed sealed
chunk whose path digest is the SHA-256 of its plaintext. -/
theorem save_repoInv
    (fce : List Nat → List Nat → Option Nat) (sha : List Nat → List Nat)
    (bseal : List Nat → List Nat → List Nat → List Nat → List Nat)
    (keys : Nat → List Nat × List Nat) (pk : List Nat)
    (hfce : ∀ fed rest n, fce fed rest = some n → 1 ≤ n ∧ n ≤ rest.length)
    (hsha32 : ∀ x, (sha x).length = 32)
    {fuel : Nat} {repo0 : Repo} {ctr0 : Nat} {input : List Nat}
    {stf : WState} {root : List Nat}
    (hRI0 : RepoInv sha bseal keys pk repo0)
    (hsave : save fce sha bseal keys pk fuel repo0 ctr0 input = .ok (stf, root)) :
    (∃ E, stf.repo = repo0 ++ E) ∧ RepoInv sha bseal keys pk stf.repo := by
  have hne : input ≠ [] := save_ok_ne_nil hsave
  rcases hsd : store_data fce sha fuel input ChunkType.Data with _ | ⟨msgs, root'⟩
  · rw [save, hsd] at hsave
    cases hsave
  · obtain ⟨st2, hw, hp2, hext, hri2⟩ :=
      store_repoInv_aux fce sha bseal keys pk hfce hsha32
        fuel input ChunkType.Data msgs root' hne hsd ⟨[], repo0, ctr0⟩ rfl hRI0
    have hwr : chunk_writer bseal keys pk ⟨[], repo0, ctr0⟩ (msgs ++ [.Exit]) = .ok st2 := by
      rw [hw [.Exit]]
      simp [chunk_writer, hp2]
    have hsave2 : save fce sha bseal keys pk fuel repo0 ctr0 input = .ok (st2, root') := by
      unfold save
      rw [hsd]
      show (match chunk_writer bseal keys pk ⟨[], repo0, ctr0⟩
          (msgs ++ [ChunkWriterMessage.Exit]) with
        | Except.error e => Except.error (SErr.w e)
        | Except.ok st => Except.ok (st, root')) = Except.ok (st2, root')
      rw [hwr]
    obtain ⟨h1, h2⟩ : st2 = stf ∧ root' = root := by
      simpa using hsave2.symm.trans hsave
    subst h1
    subst h2
    exact ⟨hext, hri2⟩

/-- Reading back a well-formed chunk file: split off the 32-byte ephemeral
public key, rebuild the nonce from the path digest's first 24 bytes, and
open the box. -/
theorem read_file_entry
    (copen : List Nat → List Nat → List Nat → List Nat → Option (List Nat))
    (bseal : List Nat → List Nat → List Nat → List Nat → List Nat)
    (keys : Nat → List Nat × List Nat) (pk sk : List Nat) (sha : List Nat → List Nat)
    (hcrypto : ∀ m n i, copen (bseal m n pk (keys i).2) n (keys i).1 sk = some m)
    (hkeylen : ∀ i, ((keys i).1).length = 32)
    (hsha32 : ∀ x, (sha x).length = 32)
    {F : Repo} {p : ObjPath} {q : List Nat} {i : Nat}
    (hget : repoGet F p = some ((keys i).1 ++ bseal q ((sha q).take 24) pk (keys i).2))
    (hd : p.2 = sha q) :
    read_file_to_writer copen sk F p p.2 = .ok q := by
  simp only [read_file_to_writer, hget]
  rw [if_pos (by rw [List.length_append, hkeylen i]; omega)]
  rw [List.take_left' (hkeylen i), List.drop_left' (hkeylen i)]
  rw [if_pos (by rw [hd, hsha32]; omega)]
  rw [hd]
  simp only [hcrypto]

theorem encodeL_inj : ∀ x y : List Nat, encodeL x = encodeL y → x = y := by
  intro x
  induction x with
  | nil =>
    intro y h
    cases y with
    | nil => rfl
    | cons b l => simp [encodeL] at h
  | cons a l ih =>
    intro y h
    cases y with
    | nil => simp [encodeL] at h
    | cons b m =>
      simp only [encodeL, Nat.add_right_cancel_iff] at h
      have h2 := congrArg Nat.unpair h
      simp only [Nat.unpair_pair] at h2
      obtain ⟨ha, hl⟩ : a = b ∧ encodeL l = encodeL m := by
        constructor
        · exact congrArg Prod.fst h2
        · exact congrArg Prod.snd h2
      rw [ha, ih m hl]

theorem shaT_len : ∀ x, (shaT x).length = 32 := by
  intro x
  simp [shaT]

theorem shaT_inj : ∀ x y, shaT x = shaT y → x = y := by
  intro x y h
  simp only [shaT, List.cons.injEq] at h
  exact encodeL_inj x y h.1

theorem fceNone_contract : ∀ fed rest n, fceNone fed rest = some n → 1 ≤ n ∧ n ≤ rest.length := by
  intro fed rest n h
  simp [fceNone] at h

theorem copenT_correct : ∀ (m n : List Nat) (i : Nat),
    copenT (bsealT m n [] (keysT i).2) n (keysT i).1 [] = some m := by
  intro m n i
  rfl

theorem keysT_len : ∀ i, ((keysT i).1).length = 32 := by
  intro i
  simp [keysT]

/-! ### Concrete evaluation: saving the one-byte stream `[7]` -/

theorem eval_readBufs7 : readBufs [7] = [[7]] := by
  rw [readBufs, if_neg (by simp), List.take_of_length_le (by simp),
    List.drop_eq_nil_of_le (by simp), readBufs_nil]

theorem eval_pass7 : storePass fceNone shaT ChunkType.Data [7] =
    ([ChunkWriterMessage.Data [7] [] ChunkType.Data,
      ChunkWriterMessage.Data [] [(0, shaT [7])] ChunkType.Data], shaT [7]) := by
  have hil : inputLoop fceNone shaT [7] Chunker.new 0 =
      { rollFed := [7], shaFed := [7], bytes_total := 1, bytes_chunk := 1,
        chunks_total := 0, edges := [] } := by
    rw [inputLoop]
    simp [fceNone, Chunker.new]
  simp [storePass, storePassBufs, eval_readBufs7, passStep, Chunker.input, hil,
    Chunker.finish, Chunker.edge_found]

theorem eval_store7 : store_data fceNone shaT 1 [7] ChunkType.Data =
    some ([ChunkWriterMessage.Data [7] [] ChunkType.Data,
      ChunkWriterMessage.Data [] [(0, shaT [7])] ChunkType.Data], shaT [7]) := by
  simp only [store_data, eval_pass7]
  rw [if_neg (by simp [shaT])]

theorem eval_writer7 :
    chunk_writer bsealT keysT [] ⟨[], [], 0⟩
      ([ChunkWriterMessage.Data [7] [] ChunkType.Data,
        ChunkWriterMessage.Data [] [(0, shaT [7])] ChunkType.Data] ++
       [ChunkWriterMessage.Exit]) =
    .ok ⟨[], [((ChunkType.Data, shaT [7]), List.replicate 32 0 ++ [7])], 1⟩ := by
  rw [List.cons_append, chunk_writer_cons_noedge]
  have hmsg : chunk_writer_msg bsealT keysT [] ⟨[[7]], [], 0⟩ [] [(0, shaT [7])]
      ChunkType.Data =
      .ok ⟨[], [((ChunkType.Data, shaT [7]), List.replicate 32 0 ++ [7])], 1⟩ := by
    rfl
  show chunk_writer bsealT keysT [] ⟨[[7]], [], 0⟩
    (ChunkWriterMessage.Data [] [(0, shaT [7])] ChunkType.Data :: [ChunkWriterMessage.Exit]) = _
  rw [chunk_writer_cons_data _ hmsg]
  simp [chunk_writer]

theorem eval_save7 : save fceNone shaT bsealT keysT [] 1 [] 0 [7] =
    .ok (⟨[], [((ChunkType.Data, shaT [7]), List.replicate 32 0 ++ [7])], 1⟩, shaT [7]) := by
  unfold save
  rw [eval_store7]
  show (match chunk_writer bsealT keysT [] ⟨[], [], 0⟩
      ([ChunkWriterMessage.Data [7] [] ChunkType.Data,
        ChunkWriterMessage.Data [] [(0, shaT [7])] ChunkType.Data] ++
       [ChunkWriterMessage.Exit]) with
    | Except.error e => Except.error (SErr.w e)
    | Except.ok st => Except.ok (st, shaT [7])) =
    Except.ok (⟨[], [((ChunkType.Data, shaT [7]), List.replicate 32 0 ++ [7])], 1⟩, shaT [7])
  rw [eval_writer7]

theorem eval_align7 : storeAligned fceNone shaT 1 [7] ChunkType.Data = true := by
  show storeAligned fceNone shaT (0 + 1) [7] ChunkType.Data = true
  simp only [storeAligned, eval_pass7]
  rw [if_neg (by simp [shaT])]
  rfl

/-! ### Concrete evaluation: the misaligned index cut scenario

Input `[1, 2]` is cut into data chunks `[1]` and `[2]`; the index stream
`cexI` (64 bytes) is cut by the rolling engine after its first byte, so the
index chunks have lengths 1 and 63 — not multiples of 32. -/

theorem eval_cex_pass1 : storePass cexFce cexSha ChunkType.Data [1, 2] =
    ([ChunkWriterMessage.Data [1, 2] [(1, cd 1)] ChunkType.Data,
      ChunkWriterMessage.Data [] [(0, cd 2)] ChunkType.Data], cexI) := by
  have hrb : readBufs [1, 2] = [[1, 2]] := by
    rw [readBufs, if_neg (by simp), List.take_of_length_le (by simp),
      List.drop_eq_nil_of_le (by simp), readBufs_nil]
  have hil : inputLoop cexFce cexSha [1, 2] Chunker.new 0 =
      { rollFed := [2], shaFed := [2], bytes_total := 2, bytes_chunk := 2,
        chunks_total := 1, edges := [(1, cd 1)] } := by
    rw [inputLoop]
    simp +decide [inputLoop, cexFce, cexSha, Chunker.new, Chunker.edge_found, cexI, cd]
  simp +decide [storePass, storePassBufs, hrb, passStep, Chunker.input, hil,
    Chunker.finish, Chunker.edge_found, cexSha, cexI, cd]

theorem eval_cex_pass2 : storePass cexFce cexSha ChunkType.Index cexI =
    ([ChunkWriterMessage.Data cexI [(1, cd 3)] ChunkType.Index,
      ChunkWriterMessage.Data [] [(0, cd 4)] ChunkType.Index], cexI2) := by
  have hrb : readBufs cexI = [cexI] := by
    rw [readBufs, if_neg (by decide), List.take_of_length_le (by decide),
      List.drop_eq_nil_of_le (by decide), readBufs_nil]
  have hil : inputLoop cexFce cexSha cexI Chunker.new 0 =
      { rollFed := cexI.drop 1, shaFed := cexI.drop 1, bytes_total := 64, bytes_chunk := 64,
        chunks_total := 1, edges := [(1, cd 3)] } := by
    rw [inputLoop]
    simp +decide [inputLoop, cexFce, cexSha, Chunker.new, Chunker.edge_found, cexI, cexI2, cd]
  simp only [storePass, storePassBufs, hrb, List.foldl_cons, List.foldl_nil, passStep,
    Chunker.input, hil]
  decide

theorem eval_cex_pass3 : storePass cexFce cexSha ChunkType.Index cexI2 =
    ([ChunkWriterMessage.Data cexI2 [] ChunkType.Index,
      ChunkWriterMessage.Data [] [(0, cd 5)] ChunkType.Index], cd 5) := by
  have hrb : readBufs cexI2 = [cexI2] := by
    rw [readBufs, if_neg (by decide), List.take_of_length_le (by decide),
      List.drop_eq_nil_of_le (by decide), readBufs_nil]
  have hil : inputLoop cexFce cexSha cexI2 Chunker.new 0 =
      { rollFed := cexI2, shaFed := cexI2, bytes_total := 64, bytes_chunk := 64,
        chunks_total := 0, edges := [] } := by
    rw [inputLoop]
    simp +decide [cexFce, Chunker.new, cexI, cexI2, cd]
  simp only [storePass, storePassBufs, hrb, List.foldl_cons, List.foldl_nil, passStep,
    Chunker.input, hil]
  decide

theorem eval_cex_store : store_data cexFce cexSha 4 [1, 2] ChunkType.Data =
    some ([ChunkWriterMessage.Data [1, 2] [(1, cd 1)] ChunkType.Data,
      ChunkWriterMessage.Data [] [(0, cd 2)] ChunkType.Data,
      ChunkWriterMessage.Data cexI [(1, cd 3)] ChunkType.Index,
      ChunkWriterMessage.Data [] [(0, cd 4)] ChunkType.Index,
      ChunkWriterMessage.Data cexI2 [] ChunkType.Index,
      ChunkWriterMessage.Data [] [(0, cd 5)] ChunkType.Index], cd 5) := by
  simp +decide only [store_data, eval_cex_pass1, eval_cex_pass2, eval_cex_pass3]

theorem eval_cex_save : save cexFce cexSha bsealT keysT [] 4 [] 0 [1, 2] =
    .ok (⟨[], cexRepo, 5⟩, cd 5) := by
  have hm1 : chunk_writer_msg bsealT keysT [] ⟨[], [], 0⟩ [1, 2] [(1, cd 1)]
      ChunkType.Data = .ok ⟨[[2]],
        [((ChunkType.Data, cd 1), List.replicate 32 0 ++ [1])], 1⟩ := by rfl
  have hm2 : chunk_writer_msg bsealT keysT []
      ⟨[[2]], [((ChunkType.Data, cd 1), List.replicate 32 0 ++ [1])], 1⟩
      [] [(0, cd 2)] ChunkType.Data = .ok ⟨[],
        [((ChunkType.Data, cd 1), List.replicate 32 0 ++ [1]),
         ((ChunkType.Data, cd 2), List.replicate 32 0 ++ [2])], 2⟩ := by rfl
  have hm3 : chunk_writer_msg bsealT keysT []
      ⟨[], [((ChunkType.Data, cd 1), List.replicate 32 0 ++ [1]),
        ((ChunkType.Data, cd 2), List.replicate 32 0 ++ [2])], 2⟩
      cexI [(1, cd 3)] ChunkType.Index = .ok ⟨[cexI.drop 1],
        [((ChunkType.Data, cd 1), List.replicate 32 0 ++ [1]),
         ((ChunkType.Data, cd 2), List.replicate 32 0 ++ [2]),
         ((ChunkType.Index, cd 3), List.replicate 32 0 ++ [9])], 3⟩ := by rfl
  have hm4 : chunk_writer_msg bsealT keysT []
      ⟨[cexI.drop 1],
        [((ChunkType.Data, cd 1), List.replicate 32 0 ++ [1]),
         ((ChunkType.Data, cd 2), List.replicate 32 0 ++ [2]),
         ((ChunkType.Index, cd 3), List.replicate 32 0 ++ [9])], 3⟩
      [] [(0, cd 4)] ChunkType.Index = .ok ⟨[],
        [((ChunkType.Data, cd 1), List.replicate 32 0 ++ [1]),
         ((ChunkType.Data, cd 2), List.replicate 32 0 ++ [2]),
         ((ChunkType.Index, cd 3), List.replicate 32 0 ++ [9]),
         ((ChunkType.Index, cd 4), List.replicate 32 0 ++ cexI.drop 1)], 4⟩ := by rfl
  have hm5 : chunk_writer_msg bsealT keysT []
      ⟨[], [((ChunkType.Data, cd 1), List.replicate 32 0 ++ [1]),
         ((ChunkType.Data, cd 2), List.replicate 32 0 ++ [2]),
         ((ChunkType.Index, cd 3), List.replicate 32 0 ++ [9]),
         ((ChunkType.Index, cd 4), List.replicate 32 0 ++ cexI.drop 1)], 4⟩
      cexI2 [] ChunkType.Index = .ok ⟨[cexI2],
        [((ChunkType.Data, cd 1), List.replicate 32 0 ++ [1]),
         ((ChunkType.Data, cd 2), List.replicate 32 0 ++ [2]),
         ((ChunkType.Index, cd 3), List.replicate 32 0 ++ [9]),
         ((ChunkType.Index, cd 4), List.replicate 32 0 ++ cexI.drop 1)], 4⟩ := by rfl
  have hm6 : chunk_writer_msg bsealT keysT []
      ⟨[cexI2],
        [((ChunkType.Data, cd 1), List.replicate 32 0 ++ [1]),
         ((ChunkType.Data, cd 2), List.replicate 32 0 ++ [2]),
         ((ChunkType.Index, cd 3), List.replicate 32 0 ++ [9]),
         ((ChunkType.Index, cd 4), List.replicate 32 0 ++ cexI.drop 1)], 4⟩
      [] [(0, cd 5)] ChunkType.Index = .ok ⟨[], cexRepo, 5⟩ := by rfl
  have hwr : chunk_writer bsealT keysT [] ⟨[], [], 0⟩
      ([ChunkWriterMessage.Data [1, 2] [(1, cd 1)] ChunkType.Data,
        ChunkWriterMessage.Data [] [(0, cd 2)] ChunkType.Data,
        ChunkWriterMessage.Data cexI [(1, cd 3)] ChunkType.Index,
        ChunkWriterMessage.Data [] [(0, cd 4)] ChunkType.Index,
        ChunkWriterMessage.Data cexI2 [] ChunkType.Index,
        ChunkWriterMessage.Data [] [(0, cd 5)] ChunkType.Index] ++
       [ChunkWriterMessage.Exit]) = .ok ⟨[], cexRepo, 5⟩ := by
    rw [List.cons_append, chunk_writer_cons_data _ hm1]
    rw [List.cons_append, chunk_writer_cons_data _ hm2]
    rw [List.cons_append, chunk_writer_cons_data _ hm3]
    rw [List.cons_append, chunk_writer_cons_data _ hm4]
    rw [List.cons_append, chunk_writer_cons_data _ hm5]
    rw [List.cons_append, chunk_writer_cons_data _ hm6]
    simp [chunk_writer]
  unfold save
  rw [eval_cex_store]
  show (match chunk_writer bsealT keysT [] ⟨[], [], 0⟩
      ([ChunkWriterMessage.Data [1, 2] [(1, cd 1)] ChunkType.Data,
        ChunkWriterMessage.Data [] [(0, cd 2)] ChunkType.Data,
        ChunkWriterMessage.Data cexI [(1, cd 3)] ChunkType.Index,
        ChunkWriterMessage.Data [] [(0, cd 4)] ChunkType.Index,
        ChunkWriterMessage.Data cexI2 [] ChunkType.Index,
        ChunkWriterMessage.Data [] [(0, cd 5)] ChunkType.Index] ++
       [ChunkWriterMessage.Exit]) with
    | Except.error e => Except.error (SErr.w e)
    | Except.ok st => Except.ok (st, cd 5)) = Except.ok (⟨[], cexRepo, 5⟩, cd 5)
  rw [hwr]

theorem eval_cex_restore : ∀ f,
    restore_data_recursive copenT [] cexRepo (f + 2) (cd 5) = .error .assertFail := by
  have hchunks : chunks32 cexI2 = [cd 3, cd 4] := by
    rw [show cexI2 = cd 3 ++ cd 4 from rfl,
      chunks32_append (cd 3) (by simp [cd]) (cd 4),
      chunks32_of_len32 (by simp [cd]), chunks32_of_len32 (by simp [cd])]
    rfl
  have hrdr3 : ∀ f, restore_data_recursive copenT [] cexRepo (f + 1) (cd 3) =
      .error .assertFail := by
    intro f
    rw [rdr_of_index f (by simp [cd]) (by rfl) (by rfl)]
    rw [if_neg (by decide)]
  have hrl : ∀ f, restore_list copenT [] cexRepo (f + 1) [cd 3, cd 4] =
      .error .assertFail := by
    intro f
    rw [restore_list, hrdr3 f]
    rfl
  intro f
  rw [show f + 2 = (f + 1) + 1 from rfl]
  rw [rdr_of_index (f + 1) (by simp [cd]) (by rfl)
    (show read_file_to_writer copenT [] cexRepo (ChunkType.Index, cd 5) (cd 5) =
      .ok cexI2 from rfl)]
  rw [if_pos (by decide), hchunks, hrl f]

/-! ### Concrete evaluation: a stream ending exactly on a declared edge -/

theorem eval_c3_il : inputLoop c3Fce shaT [5] Chunker.new 0 =
    { rollFed := [], shaFed := [], bytes_total := 1, bytes_chunk := 1,
      chunks_total := 1, edges := [(1, shaT [5])] } := by
  rw [inputLoop]
  simp +decide [inputLoop, c3Fce, Chunker.new, Chunker.edge_found]

theorem eval_c3_feed : feedAll c3Fce shaT [[5]] =
    { rollFed := [], shaFed := [], bytes_total := 1, bytes_chunk := 1,
      chunks_total := 1, edges := [] } := by
  simp only [feedAll, List.foldl_cons, List.foldl_nil, Chunker.input, eval_c3_il]

/-! ### The claims -/

/-- Claim C1, as amended.  Round-trip of `save` and the restore walker:
whenever `save` into an empty repository succeeds and, in addition, (a)
every index pass happened to cut its stream only at 32-byte boundaries
(`storeAligned` — the source never guarantees this, see the
counterexample) and (b) no digest lives in both trees (`noAlias`), the
returned root digest restores to exactly the saved stream.  The rolling
engine, hash and box are parameters constrained by their contracts. -/
theorem C1_round_trip
    (fce : List Nat → List Nat → Option Nat) (sha : List Nat → List Nat)
    (bseal : List Nat → List Nat → List Nat → List Nat → List Nat)
    (copen : List Nat → List Nat → List Nat → List Nat → Option (List Nat))
    (keys : Nat → List Nat × List Nat) (pk sk : List Nat)
    (hfce : ∀ fed rest n, fce fed rest = some n → 1 ≤ n ∧ n ≤ rest.length)
    (hsha32 : ∀ x, (sha x).length = 32)
    (hinj : ∀ x y, sha x = sha y → x = y)
    (hcrypto : ∀ m n i, copen (bseal m n pk (keys i).2) n (keys i).1 sk = some m)
    (hkeylen : ∀ i, ((keys i).1).length = 32)
    {fuel ctr0 : Nat} {input : List Nat} {stf : WState} {root : List Nat}
    (halign : storeAligned fce sha fuel input ChunkType.Data = true)
    (hsave : save fce sha bseal keys pk fuel [] ctr0 input = .ok (stf, root))
    (hna : noAlias stf.repo) :
    ∃ rfuel, restore_data_recursive copen sk stf.repo rfuel root = .ok input := by
  obtain ⟨_, _, _, h⟩ :=
    save_spec fce sha bseal copen keys pk sk hfce hsha32 hinj hcrypto hkeylen
      (fun e he => absurd he (List.not_mem_nil e)) halign hsave
  exact h hna

/-- Witness for C1: saving `[7]` with the concrete collaborators and
restoring the root digest recovers `[7]`. -/
theorem C1_round_trip_witness :
    ∃ rfuel, restore_data_recursive copenT []
      [((ChunkType.Data, shaT [7]), List.replicate 32 0 ++ [7])] rfuel (shaT [7]) =
      .ok [7] :=
  C1_round_trip fceNone shaT bsealT copenT keysT [] []
    fceNone_contract shaT_len shaT_inj copenT_correct keysT_len
    eval_align7 eval_save7
    (by intro d h1 h2; simp [repoGet] at h1)

/-- Counterexample to C1 as stated: with a rolling engine that cuts the
index stream of the two-chunk input `[1, 2]` after one byte, `save`
succeeds, but restoring the returned root digest hits the walker's
`% 32` assertion instead of producing `[1, 2]`.  (The spec's round-trip
claim holds only under the 32-byte-alignment side condition.) -/
theorem C1_counterexample :
    save cexFce cexSha bsealT keysT [] 4 [] 0 [1, 2] = .ok (⟨[], cexRepo, 5⟩, cd 5) ∧
    restore_data_recursive copenT [] cexRepo 2 (cd 5) = .error .assertFail :=
  ⟨eval_cex_save, eval_cex_restore 0⟩

/-- Claim C2.  Chunker completeness: over any sequence of `input` calls
followed by `finish`, the plaintext slices delimited by all emitted edges
(threaded by the writer's pending/cut discipline, with an empty final
tail) concatenate to the original input, and the digests carried by the
edges are exactly the hash of the respective slices. -/
theorem C2_chunker_completeness
    (fce : List Nat → List Nat → Option Nat) (sha : List Nat → List Nat)
    (hfce : ∀ fed rest n, fce fed rest = some n → 1 ≤ n ∧ n ≤ rest.length)
    (bufs : List (List Nat)) :
    ∃ cs, cutMsgs (storePassBufs fce sha ChunkType.Data bufs).1 [] = (cs, []) ∧
      ((storePassBufs fce sha ChunkType.Data bufs).1.flatMap msgEdges).map Prod.snd =
        cs.map sha ∧
      cs.flatten = bufs.flatten := by
  obtain ⟨cs, h1, h2, h3, _⟩ := chunker_pass_cut fce sha hfce ChunkType.Data bufs
  exact ⟨cs, h1, h2, h3⟩

/-- Witness for C2 at the one-buffer input `[[7]]`. -/
theorem C2_chunker_completeness_witness :
    ∃ cs, cutMsgs (storePassBufs fceNone shaT ChunkType.Data [[7]]).1 [] = (cs, []) ∧
      ((storePassBufs fceNone shaT ChunkType.Data [[7]]).1.flatMap msgEdges).map Prod.snd =
        cs.map shaT ∧
      cs.flatten = [[7]].flatten :=
  C2_chunker_completeness fceNone shaT fceNone_contract [[7]]

/-- Claim C3, as amended.  `finish` synthesizes the final `(0, sha tail)`
edge iff the whole stream is nonempty — `bytes_chunk` counts all bytes
ever fed and is never reset by `edge_found` (the source's
`bytes_chunk += 0`), so the edge appears even when the stream ended
exactly on a declared edge, and a second `finish` emits yet another edge
(the digest of the empty tail): `finish` is not idempotent on nonempty
streams. -/
theorem C3_finish_edges
    (fce : List Nat → List Nat → Option Nat) (sha : List Nat → List Nat)
    (hfce : ∀ fed rest n, fce fed rest = some n → 1 ≤ n ∧ n ≤ rest.length)
    (bufs : List (List Nat)) :
    ((feedAll fce sha bufs).finish sha).1 =
      (if bufs.flatten = [] then [] else [(0, sha (feedAll fce sha bufs).shaFed)]) ∧
    (((feedAll fce sha bufs).finish sha).2.finish sha).1 =
      (if bufs.flatten = [] then [] else [(0, sha ([] : List Nat))]) := by
  obtain ⟨_, h2, h3⟩ := finish_run_spec fce sha hfce bufs
  exact ⟨h2, h3⟩

/-- Witness for C3 at the one-buffer input `[[7]]`. -/
theorem C3_finish_edges_witness :
    ((feedAll fceNone shaT [[7]]).finish shaT).1 =
      (if [[7]].flatten = [] then []
       else [(0, shaT (feedAll fceNone shaT [[7]]).shaFed)]) ∧
    (((feedAll fceNone shaT [[7]]).finish shaT).2.finish shaT).1 =
      (if [[7]].flatten = [] then [] else [(0, shaT ([] : List Nat))]) :=
  C3_finish_edges fceNone shaT fceNone_contract [[7]]

/-- Counterexample to C3 as stated: the stream `[5]` ends exactly on a
declared edge (the `input` call returns the edge `(1, sha [5])` closing
the whole buffer), yet `finish` synthesizes a further edge, and a second
`finish` emits one again — it is not idempotent. -/
theorem C3_counterexample :
    (Chunker.new.input c3Fce shaT [5]).1 = [(1, shaT [5])] ∧
    ((feedAll c3Fce shaT [[5]]).finish shaT).1 = [(0, shaT [])] ∧
    (((feedAll c3Fce shaT [[5]]).finish shaT).2.finish shaT).1 = [(0, shaT [])] := by
  refine ⟨?_, ?_, ?_⟩
  · simp only [Chunker.input, eval_c3_il]
  · simp only [eval_c3_feed, Chunker.finish, Chunker.edge_found]
    decide
  · simp only [eval_c3_feed, Chunker.finish, Chunker.edge_found]
    decide

/-- Claim C4 is a code bug.  For the zero-byte stream the terminal
`Data(vec![], [], _)` message has no edges, so the writer pushes the empty
buffer onto `pending_data` and the `Exit` assertion
`assert!(pending_data.is_empty())` fails — `save` does not succeed.  And
restoring an empty digest panics in `digest_to_path` (`digest[0..1]` on a
zero-length slice), modelled as the `pathPanic` error. -/
theorem C4_empty_stream :
    save fceNone shaT bsealT keysT [] 1 [] 0 [] = .error (.w .exitAssert) ∧
    restore_data_recursive copenT [] [] 1 [] = .error .pathPanic := by
  constructor
  · exact save_nil fceNone shaT bsealT keysT [] 0 [] 0
  · show restore_data_recursive copenT [] [] (0 + 1) [] = _
    rw [restore_data_recursive]
    rfl

/-- Claim C5.  Path–digest agreement: starting from a repository whose
files already satisfy the chunk-object invariant (e.g. an empty one),
after any successful `save` every file of the repository — in particular
every file the writer created — sits at a path whose digest is the hash
of the plaintext that was sealed into it. -/
theorem C5_path_digest_agreement
    (fce : List Nat → List Nat → Option Nat) (sha : List Nat → List Nat)
    (bseal : List Nat → List Nat → List Nat → List Nat → List Nat)
    (keys : Nat → List Nat × List Nat) (pk : List Nat)
    (hfce : ∀ fed rest n, fce fed rest = some n → 1 ≤ n ∧ n ≤ rest.length)
    (hsha32 : ∀ x, (sha x).length = 32)
    {fuel : Nat} {repo0 : Repo} {ctr0 : Nat} {input : List Nat}
    {stf : WState} {root : List Nat}
    (hRI0 : RepoInv sha bseal keys pk repo0)
    (hsave : save fce sha bseal keys pk fuel repo0 ctr0 input = .ok (stf, root))
    (e : ObjPath × List Nat) (he : e ∈ stf.repo) :
    ∃ q i, e.1.2 = sha q ∧
      e.2 = (keys i).1 ++ bseal q ((sha q).take 24) pk (keys i).2 :=
  (save_repoInv fce sha bseal keys pk hfce hsha32 hRI0 hsave).2 e he

/-- Witness for C5: the one file created by saving `[7]`. -/
theorem C5_path_digest_agreement_witness :
    ∃ q i, ((ChunkType.Data, shaT [7]) : ObjPath).2 = shaT q ∧
      (List.replicate 32 0 ++ [7] : List Nat) =
        (keysT i).1 ++ bsealT q ((shaT q).take 24) [] (keysT i).2 :=
  C5_path_digest_agreement fceNone shaT bsealT keysT []
    fceNone_contract shaT_len
    (fun e he => absurd he (List.not_mem_nil e)) eval_save7
    ((ChunkType.Data, shaT [7]), List.replicate 32 0 ++ [7]) (List.Mem.head _)

/-- Claim C6.  The Producer's index accumulator is always a multiple of 32
bytes long; when its length is at most 32 it is either empty or the hash
of the single chunk; `store_data` recurses on it with `kind = Index`
exactly when it exceeds 32 bytes (returning the recursion's root) and
returns it as-is otherwise. -/
theorem C6_index_recursion
    (fce : List Nat → List Nat → Option Nat) (sha : List Nat → List Nat)
    (hfce : ∀ fed rest n, fce fed rest = some n → 1 ≤ n ∧ n ≤ rest.length)
    (hsha32 : ∀ x, (sha x).length = 32)
    (kind : ChunkType) (input : List Nat) (fuel : Nat) :
    (storePass fce sha kind input).2.length % 32 = 0 ∧
    ((storePass fce sha kind input).2.length ≤ 32 →
      (storePass fce sha kind input).2 = [] ∨
      ∃ ch, (storePass fce sha kind input).2 = sha ch) ∧
    (32 < (storePass fce sha kind input).2.length →
      store_data fce sha (fuel + 1) input kind =
        (match store_data fce sha fuel (storePass fce sha kind input).2 ChunkType.Index with
         | some (msgs2, root) => some ((storePass fce sha kind input).1 ++ msgs2, root)
         | none => none)) ∧
    ((storePass fce sha kind input).2.length ≤ 32 →
      store_data fce sha (fuel + 1) input kind = some (storePass fce sha kind input)) := by
  obtain ⟨cs, hcm, hdg, hfl, hix⟩ := chunker_pass_cut fce sha hfce kind (readBufs input)
  have hixl : (storePass fce sha kind input).2 = (cs.map sha).flatten := hix
  have hlen : (storePass fce sha kind input).2.length = 32 * cs.length := by
    rw [hixl, flatten_map_sha_length hsha32]
  refine ⟨?_, ?_, ?_, ?_⟩
  · rw [hlen]
    omega
  · intro hle
    rw [hlen] at hle
    rcases cs with _ | ⟨ch, _ | ⟨c2, cs2⟩⟩
    · left
      rw [hixl]
      rfl
    · right
      refine ⟨ch, ?_⟩
      rw [hixl]
      simp
    · exfalso
      simp only [List.length_cons] at hle
      omega
  · intro hgt
    rcases hsp : storePass fce sha kind input with ⟨msgs, index⟩
    rw [hsp] at hgt
    have hgt' : 32 < index.length := hgt
    simp only [store_data, hsp]
    rw [if_pos hgt']
  · intro hle
    rcases hsp : storePass fce sha kind input with ⟨msgs, index⟩
    rw [hsp] at hle
    have hle' : index.length ≤ 32 := hle
    simp only [store_data, hsp]
    rw [if_neg (by omega)]

/-- Witness for C6 at the input `[7]`. -/
theorem C6_index_recursion_witness :
    (storePass fceNone shaT ChunkType.Data [7]).2.length % 32 = 0 ∧
    ((storePass fceNone shaT ChunkType.Data [7]).2.length ≤ 32 →
      (storePass fceNone shaT ChunkType.Data [7]).2 = [] ∨
      ∃ ch, (storePass fceNone shaT ChunkType.Data [7]).2 = shaT ch) ∧
    (32 < (storePass fceNone shaT ChunkType.Data [7]).2.length →
      store_data fceNone shaT (0 + 1) [7] ChunkType.Data =
        (match store_data fceNone shaT 0 (storePass fceNone shaT ChunkType.Data [7]).2
            ChunkType.Index with
         | some (msgs2, root) =>
           some ((storePass fceNone shaT ChunkType.Data [7]).1 ++ msgs2, root)
         | none => none)) ∧
    ((storePass fceNone shaT ChunkType.Data [7]).2.length ≤ 32 →
      store_data fceNone shaT (0 + 1) [7] ChunkType.Data =
        some (storePass fceNone shaT ChunkType.Data [7])) :=
  C6_index_recursion fceNone shaT fceNone_contract shaT_len ChunkType.Data [7] 0

/-- Claim C7, as amended.  A digest is classified by probing `index/`
first and then `chunks/`; when neither file exists the walker fails with
the "not found" error; when classified as Index, the walker asserts the
decrypted plaintext's length is a multiple of 32 — zero included, the
"nonzero" of the spec is not checked (see the counterexample) — and
recurses over its 32-byte slices. -/
theorem C7_classification
    (copen : List Nat → List Nat → List Nat → List Nat → Option (List Nat))
    (sk : List Nat) (repo : Repo) (digest plain : List Nat) (fuel : Nat)
    (h2 : 2 ≤ digest.length) :
    (chunk_type repo digest =
      if (repoGet repo (ChunkType.Index, digest)).isSome then .ok (some ChunkType.Index)
      else if (repoGet repo (ChunkType.Data, digest)).isSome then .ok (some ChunkType.Data)
      else .ok none) ∧
    (chunk_type repo digest = .ok none →
      restore_data_recursive copen sk repo (fuel + 1) digest = .error .notFound) ∧
    (chunk_type repo digest = .ok (some ChunkType.Index) →
      read_file_to_writer copen sk repo (ChunkType.Index, digest) digest = .ok plain →
      restore_data_recursive copen sk repo (fuel + 1) digest =
        (if plain.length % 32 = 0 then restore_list copen sk repo fuel (chunks32 plain)
         else .error .assertFail)) := by
  refine ⟨?_, fun hct => rdr_of_notfound fuel hct,
    fun hct hread => rdr_of_index fuel h2 hct hread⟩
  unfold chunk_type
  simp only [digest_to_path_of_len h2]

/-- Witness for C7: a one-file repository holding an index object. -/
theorem C7_classification_witness :
    (chunk_type [((ChunkType.Index, shaT []), List.replicate 32 0)] (shaT []) =
      if (repoGet [((ChunkType.Index, shaT []), List.replicate 32 0)]
          (ChunkType.Index, shaT [])).isSome then .ok (some ChunkType.Index)
      else if (repoGet [((ChunkType.Index, shaT []), List.replicate 32 0)]
          (ChunkType.Data, shaT [])).isSome then .ok (some ChunkType.Data)
      else .ok none) ∧
    (chunk_type [((ChunkType.Index, shaT []), List.replicate 32 0)] (shaT []) = .ok none →
      restore_data_recursive copenT [] [((ChunkType.Index, shaT []), List.replicate 32 0)]
        (0 + 1) (shaT []) = .error .notFound) ∧
    (chunk_type [((ChunkType.Index, shaT []), List.replicate 32 0)] (shaT []) =
        .ok (some ChunkType.Index) →
      read_file_to_writer copenT [] [((ChunkType.Index, shaT []), List.replicate 32 0)]
        (ChunkType.Index, shaT []) (shaT []) = .ok [] →
      restore_data_recursive copenT [] [((ChunkType.Index, shaT []), List.replicate 32 0)]
        (0 + 1) (shaT []) =
        (if ([] : List Nat).length % 32 = 0 then
          restore_list copenT [] [((ChunkType.Index, shaT []), List.replicate 32 0)] 0
            (chunks32 [])
         else .error .assertFail)) :=
  C7_classification copenT [] [((ChunkType.Index, shaT []), List.replicate 32 0)]
    (shaT []) [] 0 (by decide)

/-- Counterexample to C7's "nonzero" clause: an index object whose
plaintext is empty restores without any assertion failure (to zero
bytes); the walker only checks `len % 32 == 0`, which `0` satisfies. -/
theorem C7_counterexample :
    restore_data_recursive copenT [] [((ChunkType.Index, shaT []), List.replicate 32 0)]
      1 (shaT []) = .ok [] := by
  show restore_data_recursive copenT [] [((ChunkType.Index, shaT []), List.replicate 32 0)]
    (0 + 1) (shaT []) = _
  rw [rdr_of_index 0 (by decide) (by rfl)
    (show read_file_to_writer copenT [] [((ChunkType.Index, shaT []), List.replicate 32 0)]
      (ChunkType.Index, shaT []) (shaT []) = .ok [] from rfl)]
  rw [if_pos (by decide), chunks32_nil, restore_list_nil]

/-- Claim C8.  Every file a successful `save` leaves in the repository is
exactly the 32-byte ephemeral public key followed by the box of the
chunk's plaintext sealed under the nonce `digest.take 24`, and
`read_file_to_writer` — which splits off the key, rebuilds that nonce
from the path digest and opens the box with the repository secret key —
recovers the plaintext. -/
theorem C8_file_layout_readback
    (fce : List Nat → List Nat → Option Nat) (sha : List Nat → List Nat)
    (bseal : List Nat → List Nat → List Nat → List Nat → List Nat)
    (copen : List Nat → List Nat → List Nat → List Nat → Option (List Nat))
    (keys : Nat → List Nat × List Nat) (pk sk : List Nat)
    (hfce : ∀ fed rest n, fce fed rest = some n → 1 ≤ n ∧ n ≤ rest.length)
    (hsha32 : ∀ x, (sha x).length = 32)
    (hcrypto : ∀ m n i, copen (bseal m n pk (keys i).2) n (keys i).1 sk = some m)
    (hkeylen : ∀ i, ((keys i).1).length = 32)
    {fuel : Nat} {repo0 : Repo} {ctr0 : Nat} {input : List Nat}
    {stf : WState} {root : List Nat}
    (hRI0 : RepoInv sha bseal keys pk repo0)
    (hsave : save fce sha bseal keys pk fuel repo0 ctr0 input = .ok (stf, root))
    (p : ObjPath) (f : List Nat) (hget : repoGet stf.repo p = some f) :
    ∃ q i, f = (keys i).1 ++ bseal q ((sha q).take 24) pk (keys i).2 ∧
      p.2 = sha q ∧
      read_file_to_writer copen sk stf.repo p p.2 = .ok q := by
  obtain ⟨_, hri⟩ := save_repoInv fce sha bseal keys pk hfce hsha32 hRI0 hsave
  obtain ⟨q, i, hd, hf⟩ := hri (p, f) (repoGet_mem hget)
  have hd' : p.2 = sha q := hd
  have hf' : f = (keys i).1 ++ bseal q ((sha q).take 24) pk (keys i).2 := hf
  rw [hf'] at hget
  exact ⟨q, i, hf', hd',
    read_file_entry copen bseal keys pk sk sha hcrypto hkeylen hsha32 hget hd'⟩

/-- Witness for C8: the one file created by saving `[7]` reads back to
`[7]`. -/
theorem C8_file_layout_readback_witness :
    ∃ q i, (List.replicate 32 0 ++ [7] : List Nat) =
        (keysT i).1 ++ bsealT q ((shaT q).take 24) [] (keysT i).2 ∧
      ((ChunkType.Data, shaT [7]) : ObjPath).2 = shaT q ∧
      read_file_to_writer copenT []
        [((ChunkType.Data, shaT [7]), List.replicate 32 0 ++ [7])]
        (ChunkType.Data, shaT [7]) (shaT [7]) = .ok q :=
  C8_file_layout_readback fceNone shaT bsealT copenT keysT [] []
    fceNone_contract shaT_len copenT_correct keysT_len
    (fun e he => absurd he (List.not_mem_nil e)) eval_save7
    (ChunkType.Data, shaT [7]) (List.replicate 32 0 ++ [7]) rfl

/-- Claim C9.  Deduplication: running `save` a second time on the same
stream against the repository produced by the first run returns the same
root digest and leaves the repository exactly as it was — every chunk's
path already exists, so the writer takes the dedup skip branch
throughout. -/
theorem C9_dedup
    (fce : List Nat → List Nat → Option Nat) (sha : List Nat → List Nat)
    (bseal : List Nat → List Nat → List Nat → List Nat → List Nat)
    (keys : Nat → List Nat × List Nat) (pk : List Nat)
    (hfce : ∀ fed rest n, fce fed rest = some n → 1 ≤ n ∧ n ≤ rest.length)
    (hsha32 : ∀ x, (sha x).length = 32)
    {fuel : Nat} {repo0 : Repo} {ctr0 : Nat} {input : List Nat}
    {st1 : WState} {root : List Nat}
    (hsave : save fce sha bseal keys pk fuel repo0 ctr0 input = .ok (st1, root))
    (ctr0' : Nat) :
    ∃ st1', save fce sha bseal keys pk fuel st1.repo ctr0' input = .ok (st1', root) ∧
      st1'.repo = st1.repo := by
  obtain ⟨st1', h1, h2, _⟩ := save_dedup fce sha bseal keys pk hfce hsha32 hsave ctr0'
  exact ⟨st1', h1, h2⟩

/-- Witness for C9: saving `[7]` again over its own repository returns
the same root and the same repository. -/
theorem C9_dedup_witness :
    ∃ st1', save fceNone shaT bsealT keysT [] 1
        [((ChunkType.Data, shaT [7]), List.replicate 32 0 ++ [7])] 1 [7] =
        .ok (st1', shaT [7]) ∧
      st1'.repo = [((ChunkType.Data, shaT [7]), List.replicate 32 0 ++ [7])] :=
  C9_dedup fceNone shaT bsealT keysT [] fceNone_contract shaT_len eval_save7 1

/-- Claim C10.  Writer invariant: whenever `processEdge` handles one edge
successfully — by the dedup skip branch (which clears the pending
buffers) or by the create-and-seal branch (which drains them into the
plaintext) — the resulting state's pending buffer list is empty. -/
theorem C10_pending_drained
    (bseal : List Nat → List Nat → List Nat → List Nat → List Nat)
    (keys : Nat → List Nat × List Nat) (pk : List Nat) (kind : ChunkType)
    (data : List Nat) (st : WState) (prev : Nat) (e : Edge)
    {st2 : WState} {ofs2 : Nat}
    (h : processEdge bseal keys pk kind data (st, prev) e = .ok (st2, ofs2)) :
    st2.pending_data = [] := by
  obtain ⟨ofs, dg⟩ := e
  simp only [processEdge] at h
  rcases hdp : digest_to_path dg kind with _ | path
  · rw [hdp] at h
    cases h
  · rw [hdp] at h
    simp only [] at h
    by_cases hs : (repoGet st.repo path).isSome
    · rw [if_pos hs] at h
      cases h
      rfl
    · rw [if_neg hs] at h
      by_cases hslice : ofs ≠ prev ∧ ¬(prev ≤ ofs ∧ ofs ≤ data.length)
      · rw [if_pos hslice] at h
        cases h
      · rw [if_neg hslice] at h
        by_cases hn : 24 ≤ dg.length
        · rw [if_pos hn] at h
          cases h
          rfl
        · rw [if_neg hn] at h
          cases h

/-- Witness for C10: one concrete edge processed through the create
branch leaves no pending buffer. -/
theorem C10_pending_drained_witness :
    processEdge bsealT keysT [] ChunkType.Data [7] (⟨[], [], 0⟩, 0) (1, shaT [7]) =
      .ok (⟨[], [((ChunkType.Data, shaT [7]), List.replicate 32 0 ++ [7])], 1⟩, 1) ∧
    (⟨[], [((ChunkType.Data, shaT [7]), List.replicate 32 0 ++ [7])], 1⟩ :
      WState).pending_data = [] :=
  ⟨rfl, C10_pending_drained bsealT keysT [] ChunkType.Data [7] ⟨[], [], 0⟩ 0
    (1, shaT [7]) rfl⟩

end RD
